import Mathlib

/-
Verification of the LicenseScanPro AAMVA barcode-decoder core.

Strings are modelled as lists of characters (`List Char`); the JavaScript
string operations used by the source (split, trim, indexOf, slice,
toUpperCase, the anchored regexes) are embedded as executable functions on
`List Char`, restricted to the ASCII behaviour that the payloads exercise.
-/

set_option linter.unusedVariables false

/-- Convert a Lean string literal to the character-list model. -/
def str (s : String) : List Char := s.data

/-- ASCII whitespace recognised by the JavaScript `trim` / `\s` class
(space, tab, LF, CR, VT, FF). -/
def isJsWhitespace (c : Char) : Bool :=
  c.toNat = 32 || c.toNat = 9 || c.toNat = 10 || c.toNat = 13 ||
  c.toNat = 11 || c.toNat = 12

/-- The regex class `[A-Z]`. -/
def isUpperAZ (c : Char) : Bool := 65 ≤ c.toNat && c.toNat ≤ 90

/-- The regex class `[a-z]`. -/
def isLowerAZ (c : Char) : Bool := 97 ≤ c.toNat && c.toNat ≤ 122

/-- The regex class `\d`. -/
def isDigitCh (c : Char) : Bool := 48 ≤ c.toNat && c.toNat ≤ 57

/-- The regex class `[A-Za-z]`. -/
def isLetterCh (c : Char) : Bool := isUpperAZ c || isLowerAZ c

/-- The regex class `[A-Za-z0-9]`. -/
def isAlnumCh (c : Char) : Bool := isLetterCh c || isDigitCh c

/-- JavaScript line terminators (the characters not matched by `.`):
LF, CR, U+2028, U+2029. -/
def isLineTerm (c : Char) : Bool :=
  c.toNat = 10 || c.toNat = 13 || c.toNat = 8232 || c.toNat = 8233

/-- ASCII `toUpperCase` on one character. -/
def upChar (c : Char) : Char :=
  if 97 ≤ c.toNat && c.toNat ≤ 122 then Char.ofNat (c.toNat - 32) else c

/-- ASCII `toLowerCase` on one character. -/
def lowChar (c : Char) : Char :=
  if 65 ≤ c.toNat && c.toNat ≤ 90 then Char.ofNat (c.toNat + 32) else c

/-- `pre.isPrefix of s` in the JavaScript `startsWith` sense. -/
def startsWith : List Char → List Char → Bool
  | [], _ => true
  | _ :: _, [] => false
  | a :: as, b :: bs => a == b && startsWith as bs

/-- Auxiliary loop of `splitOn`: accumulates the current (reversed) chunk. -/
def splitAux (sep : Char) : List Char → List Char → List (List Char)
  | [], acc => [acc.reverse]
  | c :: rest, acc =>
    if c == sep then acc.reverse :: splitAux sep rest []
    else splitAux sep rest (c :: acc)

/-- JavaScript `String.prototype.split` with a one-character separator. -/
def splitOn (sep : Char) (s : List Char) : List (List Char) :=
  splitAux sep s []

/-- JavaScript `String.prototype.trim` (ASCII whitespace model). -/
def trim (s : List Char) : List Char :=
  ((s.dropWhile isJsWhitespace).reverse.dropWhile isJsWhitespace).reverse

/-- Join chunks with a single space (JavaScript `Array.prototype.join(' ')`). -/
def joinSp : List (List Char) → List Char
  | [] => []
  | [p] => p
  | p :: ps => p ++ ' ' :: joinSp ps

/-- Auxiliary loop of `indexOfSub`, carrying the index reached so far. -/
def indexOfAux (pat : List Char) : List Char → Nat → Option Nat
  | [], i => if startsWith pat [] then some i else none
  | s@(_ :: rest), i =>
    if startsWith pat s then some i else indexOfAux pat rest (i + 1)

/-- JavaScript `String.prototype.indexOf` (first occurrence, or none). -/
def indexOfSub (pat s : List Char) : Option Nat := indexOfAux pat s 0

/-- JavaScript `indexOf(pat, start)`: first occurrence at index ≥ `start`. -/
def indexOfFrom (pat s : List Char) (start : Nat) : Option Nat :=
  (indexOfAux pat (s.drop start) 0).map (· + start)

/-- The pattern `pat` occurs in `s` at index `i`. -/
def occursAt (pat s : List Char) (i : Nat) : Prop :=
  startsWith pat (s.drop i) = true

instance (pat s : List Char) (i : Nat) : Decidable (occursAt pat s i) := by
  unfold occursAt; infer_instance

/-- `i` is the index of the first occurrence of `pat` in `s`. -/
def firstOccurIs (pat s : List Char) (i : Nat) : Prop :=
  occursAt pat s i ∧ ∀ r < i, ¬ occursAt pat s r

instance (pat s : List Char) (i : Nat) : Decidable (firstOccurIs pat s i) := by
  unfold firstOccurIs; infer_instance

/-- The closed set of structured output fields of the decoder
(the ten fields of the source `BarcodeData` interface plus the four
additional AAMVA fields named by the specification's output contract). -/
inductive DataField
  | firstName | lastName | middleName | dateOfBirth | licenseNumber
  | expirationDate | address | city | state | zipCode
  | gender | documentDiscriminator | country | nameSuffix
deriving DecidableEq, Repr

/-- A (possibly partial) structured license record: each field is either
absent or holds a string value. -/
structure LicenseRecord where
  firstName : Option (List Char) := none
  lastName : Option (List Char) := none
  middleName : Option (List Char) := none
  dateOfBirth : Option (List Char) := none
  licenseNumber : Option (List Char) := none
  expirationDate : Option (List Char) := none
  address : Option (List Char) := none
  city : Option (List Char) := none
  state : Option (List Char) := none
  zipCode : Option (List Char) := none
  gender : Option (List Char) := none
  documentDiscriminator : Option (List Char) := none
  country : Option (List Char) := none
  nameSuffix : Option (List Char) := none
deriving DecidableEq, Repr

/-- Read a field of a record (the JavaScript `data[field]`). -/
def getF (r : LicenseRecord) : DataField → Option (List Char)
  | .firstName => r.firstName
  | .lastName => r.lastName
  | .middleName => r.middleName
  | .dateOfBirth => r.dateOfBirth
  | .licenseNumber => r.licenseNumber
  | .expirationDate => r.expirationDate
  | .address => r.address
  | .city => r.city
  | .state => r.state
  | .zipCode => r.zipCode
  | .gender => r.gender
  | .documentDiscriminator => r.documentDiscriminator
  | .country => r.country
  | .nameSuffix => r.nameSuffix

/-- Assign a field of a record (the JavaScript `data[field] = v`). -/
def setF (r : LicenseRecord) (f : DataField) (v : List Char) : LicenseRecord :=
  match f with
  | .firstName => { r with firstName := some v }
  | .lastName => { r with lastName := some v }
  | .middleName => { r with middleName := some v }
  | .dateOfBirth => { r with dateOfBirth := some v }
  | .licenseNumber => { r with licenseNumber := some v }
  | .expirationDate => { r with expirationDate := some v }
  | .address => { r with address := some v }
  | .city => { r with city := some v }
  | .state => { r with state := some v }
  | .zipCode => { r with zipCode := some v }
  | .gender => { r with gender := some v }
  | .documentDiscriminator => { r with documentDiscriminator := some v }
  | .country => { r with country := some v }
  | .nameSuffix => { r with nameSuffix := some v }

/-- The record with every field absent (the JavaScript `{}`). -/
def emptyRecord : LicenseRecord := {}

/-- At least one field is present (`Object.keys(data).length > 0`). -/
def nonEmptyRecord (r : LicenseRecord) : Bool :=
  r.firstName.isSome || r.lastName.isSome || r.middleName.isSome ||
  r.dateOfBirth.isSome || r.licenseNumber.isSome || r.expirationDate.isSome ||
  r.address.isSome || r.city.isSome || r.state.isSome || r.zipCode.isSome ||
  r.gender.isSome || r.documentDiscriminator.isSome || r.country.isSome ||
  r.nameSuffix.isSome

namespace BarcodeDecoder

/-- The static AAMVA field-code table of `BarcodeDecoder.fieldMapping`
(client/src/lib/barcode-decoder.ts): three-letter code to target field. -/
def fieldMapping (code : List Char) : Option DataField :=
  if code = ['D', 'A', 'C'] then some .firstName
  else if code = ['D', 'C', 'S'] then some .lastName
  else if code = ['D', 'A', 'D'] then some .middleName
  else if code = ['D', 'B', 'B'] then some .dateOfBirth
  else if code = ['D', 'A', 'Q'] then some .licenseNumber
  else if code = ['D', 'B', 'A'] then some .expirationDate
  else if code = ['D', 'A', 'G'] then some .address
  else if code = ['D', 'A', 'I'] then some .city
  else if code = ['D', 'A', 'J'] then some .state
  else if code = ['D', 'A', 'K'] then some .zipCode
  else none

/-- `BarcodeDecoder.formatDate`: an 8-character string starting with
"19" or "20" is read as YYYYMMDD, any other 8-character string as
MMDDYYYY, and both are re-assembled as YYYY-MM-DD by slicing; any string
whose length is not 8 is returned unchanged. -/
def formatDate (dateString : List Char) : List Char :=
  if dateString.length = 8 then
    if startsWith (str "19") dateString || startsWith (str "20") dateString then
      dateString.take 4 ++ '-' :: ((dateString.drop 4).take 2 ++ '-' :: (dateString.drop 6).take 2)
    else
      (dateString.drop 4).take 4 ++ '-' :: (dateString.take 2 ++ '-' :: (dateString.drop 2).take 2)
  else dateString

/-- The anchored regex `^([A-Z]{3})(.+)$` applied to one line: returns the
code (first three capital letters) and the non-empty remainder, which `.`
forbids from containing line terminators. -/
def lineMatch : List Char → Option (List Char × List Char)
  | a :: b :: c :: rest =>
    if isUpperAZ a && isUpperAZ b && isUpperAZ c && !rest.isEmpty &&
       rest.all (fun ch => !isLineTerm ch)
    then some ([a, b, c], rest) else none
  | _ => none

/-- One iteration of the parsing loop of `parseAAMVAData`: match the line,
look the code up, and when known store the trimmed value. -/
def parseStep (d : LicenseRecord) (line : List Char) : LicenseRecord :=
  match lineMatch line with
  | some (code, value) =>
    match fieldMapping code with
    | some f => setF d f (trim value)
    | none => d
  | none => d

/-- The line loop of `parseAAMVAData` over all lines of the payload. -/
def parseLoop (lines : List (List Char)) (d : LicenseRecord) : LicenseRecord :=
  lines.foldl parseStep d

/-- First half of the date pass of `parseAAMVAData`
(`if (data.dateOfBirth) data.dateOfBirth = this.formatDate(...)`): a truthy
(present and non-empty) date of birth is re-formatted in place. -/
def fixDob (d : LicenseRecord) : LicenseRecord :=
  match d.dateOfBirth with
  | some v => if v.isEmpty then d else { d with dateOfBirth := some (formatDate v) }
  | none => d

/-- Second half of the date pass of `parseAAMVAData`, for the expiration
date. -/
def fixExp (d : LicenseRecord) : LicenseRecord :=
  match d.expirationDate with
  | some v => if v.isEmpty then d else { d with expirationDate := some (formatDate v) }
  | none => d

/-- The date pass at the end of `parseAAMVAData` (`if (data.dateOfBirth)`
and `if (data.expirationDate)`): truthy date fields are re-formatted. -/
def dateFixup (d : LicenseRecord) : LicenseRecord := fixExp (fixDob d)

/-- `BarcodeDecoder.parseAAMVAData`: split the raw payload on newlines,
fold the per-line step over an empty record, then format the dates. -/
def parseAAMVAData (rawData : List Char) : LicenseRecord :=
  dateFixup (parseLoop (splitOn '\n' rawData) emptyRecord)

/-- The result type `BarcodeDecodeResult` of the source. -/
structure BarcodeDecodeResult where
  success : Bool
  data : Option LicenseRecord := none
  confidence : Option ℚ := none
  error : Option (List Char) := none
deriving DecidableEq

/-- The fixed mock record built inside `decodeBarcode`. -/
def mockData : LicenseRecord :=
  { firstName := some (str "John")
    lastName := some (str "Doe")
    middleName := some (str "Michael")
    dateOfBirth := some (str "1985-06-15")
    licenseNumber := some (str "D12345678")
    expirationDate := some (str "2027-06-15")
    address := some (str "123 Main Street")
    city := some (str "San Francisco")
    state := some (str "CA")
    zipCode := some (str "94105") }

/-- `BarcodeDecoder.decodeBarcode`: the source simulates decoding and,
after a delay, returns the mock record with success `true` and confidence
0.92 regardless of the image data; nothing in the `try` block can throw,
so the `catch` branch is unreachable. -/
def decodeBarcode (imageData : List Char) : BarcodeDecodeResult :=
  { success := true
    data := some mockData
    confidence := some ((92 : ℚ) / 100)
    error := none }

end BarcodeDecoder


/-- The "last assignment wins" view of the line loop: the raw (untrimmed)
value of the last line whose code maps to field `f`, if any. -/
def lastFieldValue (f : DataField) (lines : List (List Char)) : Option (List Char) :=
  lines.foldl
    (fun acc line =>
      match BarcodeDecoder.lineMatch line with
      | some (code, value) =>
        match BarcodeDecoder.fieldMapping code with
        | some g => if g = f then some value else acc
        | none => acc
      | none => acc)
    none

namespace BarcodeDecoder

theorem getF_setF_same (r : LicenseRecord) (f : DataField) (v : List Char) :
    getF (setF r f v) f = some v := by
  cases f <;> rfl

theorem getF_setF_ne (r : LicenseRecord) (f g : DataField) (v : List Char)
    (h : f ≠ g) : getF (setF r g v) f = getF r f := by
  cases f <;> cases g <;> first | exact absurd rfl h | rfl

/-- Step function of `lastFieldValue` as a named function. -/
def lfvStep (f : DataField) (acc : Option (List Char)) (line : List Char) :
    Option (List Char) :=
  match lineMatch line with
  | some (code, value) =>
    match fieldMapping code with
    | some g => if g = f then some value else acc
    | none => acc
  | none => acc

theorem lastFieldValue_eq_foldl (f : DataField) (lines : List (List Char)) :
    lastFieldValue f lines = lines.foldl (lfvStep f) none := rfl

/-- Restarting the `lastFieldValue` fold from an arbitrary accumulator:
a later match overrides, otherwise the accumulator survives. -/
theorem lfv_foldl_acc (f : DataField) (lines : List (List Char)) :
    ∀ acc : Option (List Char),
      lines.foldl (lfvStep f) acc =
        match lines.foldl (lfvStep f) none with
        | some v => some v
        | none => acc := by
  induction lines with
  | nil => intro acc; simp
  | cons l ls ih =>
    intro acc
    show ls.foldl (lfvStep f) (lfvStep f acc l) =
      match ls.foldl (lfvStep f) (lfvStep f none l) with
      | some v => some v
      | none => acc
    rw [ih (lfvStep f acc l), ih (lfvStep f none l)]
    cases hls : ls.foldl (lfvStep f) none with
    | some v => rfl
    | none =>
      show lfvStep f acc l =
        match lfvStep f none l with
        | some v => some v
        | none => acc
      unfold lfvStep
      cases lineMatch l with
      | none => rfl
      | some pr =>
        obtain ⟨code, value⟩ := pr
        cases hm : fieldMapping code with
        | none => simp [hm]
        | some g =>
          by_cases hg : g = f <;> simp [hm, hg]

/-- The field `f` of the record built by the line loop is the trimmed value
of the last line assigning to `f`, or the initial record's value. -/
theorem parseLoop_getF (f : DataField) (lines : List (List Char)) :
    ∀ r : LicenseRecord,
      getF (parseLoop lines r) f =
        match lastFieldValue f lines with
        | some v => some (trim v)
        | none => getF r f := by
  induction lines with
  | nil => intro r; simp [parseLoop, lastFieldValue]
  | cons l ls ih =>
    intro r
    show getF (parseLoop ls (parseStep r l)) f =
      match lastFieldValue f (l :: ls) with
      | some v => some (trim v)
      | none => getF r f
    rw [show parseLoop ls (parseStep r l) = ls.foldl parseStep (parseStep r l) from rfl]
    have hloop : ls.foldl parseStep (parseStep r l) = parseLoop ls (parseStep r l) := rfl
    rw [hloop, ih (parseStep r l)]
    have hl : lastFieldValue f (l :: ls) =
        ls.foldl (lfvStep f) (lfvStep f none l) := rfl
    rw [hl, lfv_foldl_acc f ls (lfvStep f none l)]
    cases hls : lastFieldValue f ls with
    | some v => rw [lastFieldValue_eq_foldl] at hls; rw [hls]
    | none =>
      rw [lastFieldValue_eq_foldl] at hls; rw [hls]
      show getF (parseStep r l) f =
        match lfvStep f none l with
        | some v => some (trim v)
        | none => getF r f
      unfold parseStep lfvStep
      cases lineMatch l with
      | none => rfl
      | some pr =>
        obtain ⟨code, value⟩ := pr
        cases hm : fieldMapping code with
        | none => simp [hm]
        | some g =>
          by_cases hg : g = f
          · subst hg; simp [hm, getF_setF_same]
          · simp [hm, hg, getF_setF_ne r f g _ (fun h => hg h.symm)]

theorem fixDob_getF_ne (d : LicenseRecord) (f : DataField)
    (h : f ≠ .dateOfBirth) : getF (fixDob d) f = getF d f := by
  unfold fixDob
  cases hb : d.dateOfBirth with
  | none => rfl
  | some v =>
    by_cases hv : v.isEmpty <;> cases f <;> simp_all [getF]

theorem fixDob_getF_dob (d : LicenseRecord) :
    getF (fixDob d) .dateOfBirth =
      match d.dateOfBirth with
      | some v => if v.isEmpty then some v else some (formatDate v)
      | none => none := by
  unfold fixDob
  cases hb : d.dateOfBirth with
  | none => simp [getF, hb]
  | some v => by_cases hv : v.isEmpty <;> simp_all [getF]

theorem fixExp_getF_ne (d : LicenseRecord) (f : DataField)
    (h : f ≠ .expirationDate) : getF (fixExp d) f = getF d f := by
  unfold fixExp
  cases hb : d.expirationDate with
  | none => rfl
  | some v =>
    by_cases hv : v.isEmpty <;> cases f <;> simp_all [getF]

theorem fixExp_getF_exp (d : LicenseRecord) :
    getF (fixExp d) .expirationDate =
      match d.expirationDate with
      | some v => if v.isEmpty then some v else some (formatDate v)
      | none => none := by
  unfold fixExp
  cases hb : d.expirationDate with
  | none => simp [getF, hb]
  | some v => by_cases hv : v.isEmpty <;> simp_all [getF]

/-- `dateFixup` leaves every field other than the two date fields alone,
and re-formats a truthy (present, non-empty) date field. -/
theorem dateFixup_getF (d : LicenseRecord) (f : DataField) :
    getF (dateFixup d) f =
      if f = .dateOfBirth ∨ f = .expirationDate then
        match getF d f with
        | some v => if v.isEmpty then some v else some (formatDate v)
        | none => none
      else getF d f := by
  unfold dateFixup
  by_cases hb : f = .dateOfBirth
  · subst hb
    rw [fixExp_getF_ne _ _ (by intro h; exact DataField.noConfusion h),
      fixDob_getF_dob]
    simp [getF]
  · by_cases he : f = .expirationDate
    · subst he
      rw [fixExp_getF_exp]
      have : (fixDob d).expirationDate = d.expirationDate := by
        have := fixDob_getF_ne d .expirationDate
          (by intro h; exact DataField.noConfusion h)
        simpa [getF] using this
      rw [this]; simp [getF]
    · rw [fixExp_getF_ne _ _ he, fixDob_getF_ne _ _ hb]
      simp [hb, he]

end BarcodeDecoder

namespace SpecModel

/-- Modelled from the spec: the ordered field-code table of §3/§4.2 of the
specification (the segmenter-side table is not in the shipped source — only
the line parser's `fieldMapping` is — so it is reconstructed from the
spec's FieldCode list, with `DCS` listed before its legacy alias `DCT` to
give the primary code precedence). -/
def specFieldTable : List (List Char × DataField) :=
  [ (str "DAC", .firstName)
  , (str "DCS", .lastName)
  , (str "DCT", .lastName)
  , (str "DAD", .middleName)
  , (str "DBB", .dateOfBirth)
  , (str "DAQ", .licenseNumber)
  , (str "DBA", .expirationDate)
  , (str "DAG", .address)
  , (str "DAI", .city)
  , (str "DAJ", .state)
  , (str "DAK", .zipCode)
  , (str "DBC", .gender)
  , (str "DCF", .documentDiscriminator)
  , (str "DCG", .country)
  , (str "DDE", .nameSuffix) ]

/-- Modelled from the spec: §4.1 Header Locator — search for the literal
substring "DL" first, then "ID", and return the payload from the located
header on; with neither header the whole string is the payload. -/
def locateHeader (raw : List Char) : List Char :=
  match indexOfSub (str "DL") raw with
  | some i => raw.drop i
  | none =>
    match indexOfSub (str "ID") raw with
    | some i => raw.drop i
    | none => raw

/-- Modelled from the spec: §4.2 Field Segmenter — the raw value of one
field code: from the end of the code's first occurrence up to the next
occurrence of any OTHER known code (minimum index across the other codes),
or the end of the payload; trimmed, and discarded if empty after trimming. -/
def extractField (payload code : List Char) : Option (List Char) :=
  match indexOfSub code payload with
  | none => none
  | some p =>
    let start := p + 3
    let stops := (specFieldTable.filter (fun e => e.1 ≠ code)).filterMap
      (fun e => indexOfFrom e.1 payload start)
    let stop := stops.foldl min payload.length
    let raw := trim ((payload.drop start).take (stop - start))
    if raw = [] then none else some raw

/-- Step of the table fold of the segmenter: an already-populated field is
kept (primary-code precedence); otherwise a successful extraction fills it. -/
def segStep (payload : List Char) (r : LicenseRecord)
    (e : List Char × DataField) : LicenseRecord :=
  match getF r e.2 with
  | some _ => r
  | none =>
    match extractField payload e.1 with
    | some v => setF r e.2 v
    | none => r

/-- Modelled from the spec: §4.2 — extract every field of the table in
table order over an initially empty record. -/
def segmentExtract (payload : List Char) : LicenseRecord :=
  specFieldTable.foldl (segStep payload) emptyRecord

/-- Modelled from the spec: §4.3 date normalizer — exactly 8 digits are
disambiguated by the 19/20-prefix rule and emitted as YYYY-MM-DD; anything
else passes through unchanged. -/
def specDateNorm (s : List Char) : List Char :=
  if s.length = 8 && s.all isDigitCh then
    if startsWith (str "19") s || startsWith (str "20") s then
      s.take 4 ++ '-' :: ((s.drop 4).take 2 ++ '-' :: (s.drop 6).take 2)
    else
      (s.drop 4).take 4 ++ '-' :: (s.take 2 ++ '-' :: ((s.drop 2).take 2))
  else s

/-- Modelled from the spec: §4.3 name normalizer — strip characters outside
letters, digits, whitespace, hyphen and apostrophe, then trim again. -/
def specNameNorm (s : List Char) : List Char :=
  trim (s.filter (fun c =>
    isLetterCh c || isDigitCh c || isJsWhitespace c || c == '-' ||
    c == Char.ofNat 39))

/-- Modelled from the spec: §4.3 license-number normalizer — strip all
non-alphanumeric characters. -/
def specLicenseNorm (s : List Char) : List Char := s.filter isAlnumCh

/-- Modelled from the spec: §4.3 state/country normalizer — uppercase. -/
def specUpperNorm (s : List Char) : List Char := s.map upChar

/-- Modelled from the spec: §4.3 zip normalizer — strip non-digits. -/
def specZipNorm (s : List Char) : List Char := s.filter isDigitCh

/-- Modelled from the spec: §4.3 gender normalizer — uppercase, then any
value starting with M collapses to "M" and any starting with F to "F". -/
def specGenderNorm (s : List Char) : List Char :=
  let u := s.map upChar
  let u1 := if startsWith ['M'] u then ['M'] else u
  if startsWith ['F'] u1 then ['F'] else u1

/-- Modelled from the spec: apply each §4.3 normalizer to its field. -/
def normalizeRecord (r : LicenseRecord) : LicenseRecord :=
  { firstName := r.firstName.map specNameNorm
    lastName := r.lastName.map specNameNorm
    middleName := r.middleName.map specNameNorm
    dateOfBirth := r.dateOfBirth.map specDateNorm
    licenseNumber := r.licenseNumber.map specLicenseNorm
    expirationDate := r.expirationDate.map specDateNorm
    address := r.address
    city := r.city
    state := r.state.map specUpperNorm
    zipCode := r.zipCode.map specZipNorm
    gender := r.gender.map specGenderNorm
    documentDiscriminator := r.documentDiscriminator
    country := r.country.map specUpperNorm
    nameSuffix := r.nameSuffix.map specNameNorm }

/-- Modelled from the spec: the secondary strategy of §4.4 — the §4.1–§4.3
pipeline (header location, segmentation, normalization) over the whole
payload without requiring line breaks. -/
def headerStrategy (raw : List Char) : LicenseRecord :=
  normalizeRecord (segmentExtract (locateHeader raw))

/-- Modelled from the spec: first run of 8 consecutive digits (the regex
guess for a date of birth in the tertiary strategy). -/
def findRun8Digits : List Char → Option (List Char)
  | [] => none
  | c :: rest =>
    if ((c :: rest).take 8).length = 8 && ((c :: rest).take 8).all isDigitCh
    then some ((c :: rest).take 8)
    else findRun8Digits rest

/-- Modelled from the spec: first alphanumeric run beginning with a letter
(the regex guess for a license number in the tertiary strategy). -/
def findLicenseRun : List Char → Option (List Char)
  | [] => none
  | c :: rest =>
    if isLetterCh c then some (c :: rest.takeWhile isAlnumCh)
    else findLicenseRun rest

/-- Modelled from the spec: first two-capital-letters-plus-5-digits run
(the regex guess for state+zip in the tertiary strategy). -/
def findStateZip : List Char → Option (List Char × List Char)
  | [] => none
  | c :: rest =>
    if (((c :: rest).take 2).all isUpperAZ && ((c :: rest).take 2).length = 2)
        && ((((c :: rest).drop 2).take 5).all isDigitCh
            && (((c :: rest).drop 2).take 5).length = 5)
    then some ((c :: rest).take 2, ((c :: rest).drop 2).take 5)
    else findStateZip rest

/-- Modelled from the spec: §4.4 tertiary best-effort strategy — regex
pattern guesses over the raw text for the three documented shapes. -/
def patternStrategy (raw : List Char) : LicenseRecord :=
  { emptyRecord with
    dateOfBirth := (findRun8Digits raw).map specDateNorm
    licenseNumber := findLicenseRun raw
    state := (findStateZip raw).map (fun pr => pr.1)
    zipCode := (findStateZip raw).map (fun pr => pr.2) }

/-- Structured failure reasons named by the spec's output contract (§6). -/
inductive FailureReason
  | AllStrategiesEmpty
  | NoBarcodeHeaderAndNoFieldsFound
deriving DecidableEq, Repr

/-- Modelled from the spec: §3 DecodeOutcome — success with a record and a
confidence, or a failure with a diagnostic reason. -/
inductive DecodeOutcome
  | success (record : LicenseRecord) (confidence : ℚ)
  | failure (reason : FailureReason)
deriving DecidableEq, Repr

/-- Modelled from the spec: §4.4 Decode Orchestrator — try the line-oriented
primary strategy (the source `parseAAMVAData`), then the header/segmenter
secondary strategy, then the tertiary pattern guesses; stop at the first
non-empty record (confidence 0.95 for the structured strategies, 0.80 for
the best-effort one); if every strategy yields an empty record the decode
is a Failure. -/
def decodePayload (raw : List Char) : DecodeOutcome :=
  let primary := BarcodeDecoder.parseAAMVAData raw
  if nonEmptyRecord primary then .success primary ((95 : ℚ) / 100)
  else
    let secondary := headerStrategy raw
    if nonEmptyRecord secondary then .success secondary ((95 : ℚ) / 100)
    else
      let tertiary := patternStrategy raw
      if nonEmptyRecord tertiary then .success tertiary ((80 : ℚ) / 100)
      else .failure .AllStrategiesEmpty

end SpecModel


namespace OCRService

/-- `OCRService.cleanName`'s per-word step: `part.charAt(0).toUpperCase()
+ part.slice(1).toLowerCase()`. -/
def capPart : List Char → List Char
  | [] => []
  | c :: rest => upChar c :: rest.map lowChar

/-- `OCRService.cleanName`: split on single spaces, capitalize each part,
re-join with spaces, and trim. -/
def cleanName (name : List Char) : List Char :=
  trim (joinSp ((splitOn ' ' name).map capPart))

/-- License-number normalizer of `postProcessData`:
`replace(/\s+/g, '').toUpperCase()`. -/
def licenseNormalize (s : List Char) : List Char :=
  (s.filter (fun c => !isJsWhitespace c)).map upChar

/-- State normalizer of `postProcessData`: `toUpperCase()`. -/
def stateNormalize (s : List Char) : List Char := s.map upChar

/-- Zip normalizer of `postProcessData`: `replace(/\D/g, '')`. -/
def zipNormalize (s : List Char) : List Char := s.filter isDigitCh

/-- Gender normalizer of `postProcessData`: uppercase, then collapse a
leading M to "M" and a leading F to "F". -/
def genderNormalize (s : List Char) : List Char :=
  let u := s.map upChar
  let u1 := if startsWith ['M'] u then ['M'] else u
  if startsWith ['F'] u1 then ['F'] else u1

/-- Eye-color normalizer of `postProcessData`: `toUpperCase()`. -/
def eyeColorNormalize (s : List Char) : List Char := s.map upChar

/-- Fuel-driven loop producing the decimal digits of `n`, most significant
first; any fuel of at least `n` is sufficient. -/
def natDigitsAux : Nat → Nat → List Char
  | 0, n => [Nat.digitChar n]
  | fuel + 1, n =>
    if n < 10 then [Nat.digitChar n]
    else natDigitsAux fuel (n / 10) ++ [Nat.digitChar (n % 10)]

/-- Decimal digits of a natural number, most significant first. -/
def natDigits (n : Nat) : List Char := natDigitsAux n n

/-- JavaScript `String(int)`. -/
def intDigits (i : Int) : List Char :=
  if i < 0 then '-' :: natDigits i.natAbs else natDigits i.toNat

/-- JavaScript `String(n).padStart(2, '0')`. -/
def pad2 (n : Nat) : List Char :=
  if (natDigits n).length < 2 then '0' :: natDigits n else natDigits n

/-- Numeric value of a decimal digit character. -/
def digVal (c : Char) : Nat := c.toNat - 48

/-- `parseInt` of a two-digit group captured by `\d{2}`. -/
def nat2 (a b : Char) : Nat := 10 * digVal a + digVal b

/-- `parseInt` of a four-digit group captured by `\d{4}`. -/
def nat4 (a b c d : Char) : Nat :=
  1000 * digVal a + 100 * digVal b + 10 * digVal c + digVal d

/-- The anchored regex `^\d{2}\/\d{2}\/\d{4}$` (positions checked through
`getD`, so a match forces length 10 and the shown character classes). -/
def isPat1 (l : List Char) : Bool :=
  l.length = 10 && isDigitCh (l.getD 0 ' ') && isDigitCh (l.getD 1 ' ') &&
  (l.getD 2 ' ' == '/') && isDigitCh (l.getD 3 ' ') && isDigitCh (l.getD 4 ' ') &&
  (l.getD 5 ' ' == '/') && isDigitCh (l.getD 6 ' ') && isDigitCh (l.getD 7 ' ') &&
  isDigitCh (l.getD 8 ' ') && isDigitCh (l.getD 9 ' ')

/-- The anchored regex `^\d{2}-\d{2}-\d{4}$`. -/
def isPat2 (l : List Char) : Bool :=
  l.length = 10 && isDigitCh (l.getD 0 ' ') && isDigitCh (l.getD 1 ' ') &&
  (l.getD 2 ' ' == '-') && isDigitCh (l.getD 3 ' ') && isDigitCh (l.getD 4 ' ') &&
  (l.getD 5 ' ' == '-') && isDigitCh (l.getD 6 ' ') && isDigitCh (l.getD 7 ' ') &&
  isDigitCh (l.getD 8 ' ') && isDigitCh (l.getD 9 ' ')

/-- The anchored regex `^\d{4}-\d{2}-\d{2}$`. -/
def isPat3 (l : List Char) : Bool :=
  l.length = 10 && isDigitCh (l.getD 0 ' ') && isDigitCh (l.getD 1 ' ') &&
  isDigitCh (l.getD 2 ' ') && isDigitCh (l.getD 3 ' ') &&
  (l.getD 4 ' ' == '-') && isDigitCh (l.getD 5 ' ') && isDigitCh (l.getD 6 ' ') &&
  (l.getD 7 ' ' == '-') && isDigitCh (l.getD 8 ' ') && isDigitCh (l.getD 9 ' ')

/-- The anchored regex `^\d{4}\/\d{2}\/\d{2}$`. -/
def isPat4 (l : List Char) : Bool :=
  l.length = 10 && isDigitCh (l.getD 0 ' ') && isDigitCh (l.getD 1 ' ') &&
  isDigitCh (l.getD 2 ' ') && isDigitCh (l.getD 3 ' ') &&
  (l.getD 4 ' ' == '/') && isDigitCh (l.getD 5 ' ') && isDigitCh (l.getD 6 ' ') &&
  (l.getD 7 ' ' == '/') && isDigitCh (l.getD 8 ' ') && isDigitCh (l.getD 9 ' ')

/-- The (month, day, year) components of a string matching pattern 1 or 2
(positions 0-1, 3-4 and 6-9). -/
def mdyOf : List Char → Nat × Nat × Nat
  | [a, b, _, d, e, _, g, h, i, j] => (nat2 a b, nat2 d e, nat4 g h i j)
  | _ => (0, 0, 0)

/-- Days since 1970-01-01 of a proleptic-Gregorian civil date (y, m ∈ 1..12,
day offset d which may exceed the month or be ≤ 0); the standard era-based
civil-calendar computation used to realise ECMAScript MakeDay. -/
def daysFromCivil (y : Int) (m : Nat) (d : Int) : Int :=
  let yAdj : Int := y - (if m ≤ 2 then 1 else 0)
  let era : Int := yAdj / 400
  let yoe : Nat := (yAdj - era * 400).toNat
  let mp : Nat := (m + 9) % 12
  let doy : Int := (((153 * mp + 2) / 5 : Nat) : Int) + d - 1
  let doe : Int := (yoe * 365 + yoe / 4 - yoe / 100 : Nat) + doy
  era * 146097 + doe - 719468

/-- The civil date (year, month, day-of-month) of a days-since-epoch count:
the inverse era-based computation, realising ECMAScript YearFromTime /
MonthFromTime / DateFromTime. -/
def civilFromDays (z : Int) : Int × Nat × Nat :=
  let zShift : Int := z + 719468
  let era : Int := zShift / 146097
  let doe : Nat := (zShift - era * 146097).toNat
  let yoe : Nat := (doe - doe / 1460 + doe / 36524 - doe / 146096) / 365
  let doy : Nat := doe - (365 * yoe + yoe / 4 - yoe / 100)
  let mp : Nat := (5 * doy + 2) / 153
  let d : Nat := doy - (153 * mp + 2) / 5 + 1
  let m : Nat := if mp < 10 then mp + 3 else mp - 9
  (era * 400 + yoe + (if m ≤ 2 then 1 else 0), m, d)

/-- ECMAScript MakeDay: month may be any integer (it rolls over into the
year), day offset may be any integer. -/
def jsMakeDay (y m d : Int) : Int :=
  let ym : Int := y + m / 12
  let mn : Nat := (m % 12).toNat
  daysFromCivil ym (mn + 1) d

/-- `new Date(y, m, d)` followed by `getFullYear`/`getMonth`/`getDate`:
the civil date after rollover, or `none` when the time value exceeds the
ECMAScript ±8.64e15 ms range (`isNaN(date.getTime())`). -/
def jsDateYMD (y m d : Int) : Option (Int × Nat × Nat) :=
  let days := jsMakeDay y m d
  if days.natAbs ≤ 100000000 then some (civilFromDays days) else none

/-- The two-digit-year rule of `new Date(year, ...)`: 0–99 maps into
1900–1999. -/
def yearAdjust (y : Int) : Int := if 0 ≤ y ∧ y ≤ 99 then y + 1900 else y

/-- `` `${year}-${month pad2}-${day pad2}` `` of the resolved date. -/
def fmtYMD : Int × Nat × Nat → List Char
  | (y, m, d) => intDigits y ++ '-' :: (pad2 m ++ '-' :: pad2 d)

/-- The `date = new Date(...)` branch of `OCRService.formatDate` for a
string with month/day/year components: format the resolved date, falling
back to the original string when the date is invalid. -/
def dateFromMDY (orig : List Char) (mdy : Nat × Nat × Nat) : List Char :=
  match jsDateYMD (yearAdjust (mdy.2.2 : Int)) ((mdy.1 : Int) - 1) (mdy.2.1 : Int) with
  | some ymd => fmtYMD ymd
  | none => orig

/-- `OCRService.formatDate`: strip characters outside digits, slash and
hyphen; then try MM/DD/YYYY, MM-DD-YYYY (both through `new Date`),
YYYY-MM-DD (already canonical) and YYYY/MM/DD (slash-to-hyphen); any other
shape is returned unchanged. -/
def formatDate (dateString : List Char) : List Char :=
  let cleaned := dateString.filter (fun c => isDigitCh c || c == '/' || c == '-')
  if isPat1 cleaned then dateFromMDY dateString (mdyOf cleaned)
  else if isPat2 cleaned then dateFromMDY dateString (mdyOf cleaned)
  else if isPat3 cleaned then cleaned
  else if isPat4 cleaned then cleaned.map (fun c => if c == '/' then '-' else c)
  else dateString

end OCRService



section IndexOfLemmas

theorem indexOfAux_spec (pat : List Char) :
    ∀ (s : List Char) (i p : Nat),
      indexOfAux pat s i = some p ↔
        ∃ k, p = i + k ∧ startsWith pat (s.drop k) = true ∧
          ∀ r < k, startsWith pat (s.drop r) = false := by
  intro s
  induction s with
  | nil =>
    intro i p
    unfold indexOfAux
    cases hsw : startsWith pat [] with
    | true =>
      rw [if_pos rfl]
      constructor
      · intro h'
        have hp : p = i := by
          have := Option.some.inj h'
          omega
        exact ⟨0, by omega, by simpa using hsw, by omega⟩
      · rintro ⟨k, hp, hk, hmin⟩
        rcases Nat.eq_zero_or_pos k with hk0 | hkpos
        · subst hk0; simp [hp]
        · have := hmin 0 hkpos
          simp only [List.drop_nil] at this
          rw [this] at hsw; cases hsw
    | false =>
      rw [if_neg Bool.false_ne_true]
      constructor
      · intro h'; cases h'
      · rintro ⟨k, hp, hk, hmin⟩
        simp only [List.drop_nil] at hk
        rw [hk] at hsw; cases hsw
  | cons c rest ih =>
    intro i p
    unfold indexOfAux
    cases hsw : startsWith pat (c :: rest) with
    | true =>
      rw [if_pos rfl]
      constructor
      · intro h'
        have hp : p = i := (Option.some.inj h').symm
        exact ⟨0, by omega, by simpa using hsw, by omega⟩
      · rintro ⟨k, hp, hk, hmin⟩
        rcases Nat.eq_zero_or_pos k with hk0 | hkpos
        · subst hk0; simp [hp]
        · have := hmin 0 hkpos
          simp only [List.drop_zero] at this
          rw [this] at hsw; cases hsw
    | false =>
      rw [if_neg Bool.false_ne_true]
      rw [ih (i + 1) p]
      constructor
      · rintro ⟨k, hp, hk, hmin⟩
        refine ⟨k + 1, by omega, by simpa using hk, ?_⟩
        intro r hr
        cases r with
        | zero => simpa using hsw
        | succ r' => simpa using hmin r' (by omega)
      · rintro ⟨k, hp, hk, hmin⟩
        cases k with
        | zero =>
          simp only [List.drop_zero] at hk
          rw [hk] at hsw; cases hsw
        | succ k' =>
          refine ⟨k', by omega, by simpa using hk, ?_⟩
          intro r hr
          simpa using hmin (r + 1) (by omega)

theorem indexOfAux_none_iff (pat : List Char) :
    ∀ (s : List Char) (i : Nat),
      indexOfAux pat s i = none ↔ ∀ r, startsWith pat (s.drop r) = false := by
  intro s
  induction s with
  | nil =>
    intro i
    unfold indexOfAux
    cases hsw : startsWith pat [] with
    | true =>
      rw [if_pos rfl]
      constructor
      · intro h'; cases h'
      · intro h'
        have := h' 0
        simp only [List.drop_nil] at this
        rw [this] at hsw; cases hsw
    | false =>
      rw [if_neg Bool.false_ne_true]
      exact iff_of_true rfl (fun r => by simpa using hsw)
  | cons c rest ih =>
    intro i
    unfold indexOfAux
    cases hsw : startsWith pat (c :: rest) with
    | true =>
      rw [if_pos rfl]
      constructor
      · intro h'; cases h'
      · intro h'
        have := h' 0
        simp only [List.drop_zero] at this
        rw [this] at hsw; cases hsw
    | false =>
      rw [if_neg Bool.false_ne_true]
      rw [ih (i + 1)]
      constructor
      · intro h' r
        cases r with
        | zero => simpa using hsw
        | succ r' => simpa using h' r'
      · intro h' r
        simpa using h' (r + 1)

theorem indexOfSub_some_iff (pat s : List Char) (p : Nat) :
    indexOfSub pat s = some p ↔ firstOccurIs pat s p := by
  unfold indexOfSub firstOccurIs occursAt
  rw [indexOfAux_spec]
  constructor
  · rintro ⟨k, hp, hk, hmin⟩
    have hpk : p = k := by omega
    subst hpk
    exact ⟨hk, fun r hr => by simp [hmin r hr]⟩
  · rintro ⟨hocc, hmin⟩
    refine ⟨p, by omega, hocc, fun r hr => ?_⟩
    have := hmin r hr
    revert this
    cases startsWith pat (s.drop r) <;> simp

theorem indexOfSub_none_iff (pat s : List Char) :
    indexOfSub pat s = none ↔ ∀ r, ¬ occursAt pat s r := by
  unfold indexOfSub occursAt
  rw [indexOfAux_none_iff]
  constructor
  · intro h r; simp [h r]
  · intro h r
    have := h r
    revert this
    cases startsWith pat (s.drop r) <;> simp

theorem occursAt_drop (pat s : List Char) (start k : Nat) :
    occursAt pat (s.drop start) k ↔ occursAt pat s (start + k) := by
  unfold occursAt
  rw [List.drop_drop]

theorem indexOfFrom_some_iff (pat s : List Char) (start q : Nat) :
    indexOfFrom pat s start = some q ↔
      start ≤ q ∧ occursAt pat s q ∧
        ∀ r, start ≤ r → r < q → ¬ occursAt pat s r := by
  unfold indexOfFrom
  rw [show (indexOfAux pat (s.drop start) 0) = indexOfSub pat (s.drop start) from rfl]
  constructor
  · intro h
    rw [Option.map_eq_some'] at h
    obtain ⟨p, hp, hq⟩ := h
    rw [indexOfSub_some_iff] at hp
    obtain ⟨hocc, hmin⟩ := hp
    subst hq
    rw [occursAt_drop] at hocc
    refine ⟨by omega, by rw [Nat.add_comm] at hocc; exact hocc, ?_⟩
    intro r hsr hrq hocc'
    have : occursAt pat (s.drop start) (r - start) := by
      rw [occursAt_drop]
      have hr : start + (r - start) = r := by omega
      rw [hr]
      exact hocc'
    exact hmin (r - start) (by omega) this
  · rintro ⟨hsq, hocc, hmin⟩
    rw [Option.map_eq_some']
    refine ⟨q - start, ?_, by omega⟩
    rw [indexOfSub_some_iff]
    constructor
    · rw [occursAt_drop]
      have hr : start + (q - start) = q := by omega
      rw [hr]
      exact hocc
    · intro r hr hocc'
      rw [occursAt_drop] at hocc'
      exact hmin (start + r) (by omega) (by omega) hocc'

theorem indexOfFrom_none_iff (pat s : List Char) (start : Nat) :
    indexOfFrom pat s start = none ↔
      ∀ r, start ≤ r → ¬ occursAt pat s r := by
  unfold indexOfFrom
  rw [Option.map_eq_none',
    show (indexOfAux pat (s.drop start) 0) = indexOfSub pat (s.drop start) from rfl,
    indexOfSub_none_iff]
  constructor
  · intro h r hsr hocc
    apply h (r - start)
    rw [occursAt_drop]
    have hr : start + (r - start) = r := by omega
    rw [hr]
    exact hocc
  · intro h r hocc
    rw [occursAt_drop] at hocc
    exact h (start + r) (by omega) hocc

theorem occursAt_lt_length (a : Char) (pat' s : List Char) (q : Nat)
    (h : occursAt (a :: pat') s q) : q < s.length := by
  unfold occursAt at h
  by_contra hq
  push_neg at hq
  rw [List.drop_eq_nil_of_le hq] at h
  cases h

end IndexOfLemmas

section FoldlMinLemmas

theorem foldl_min_le_init : ∀ (l : List Nat) (init : Nat),
    l.foldl min init ≤ init := by
  intro l
  induction l with
  | nil => intro init; simp
  | cons a l ih =>
    intro init
    calc (a :: l).foldl min init = l.foldl min (min init a) := rfl
    _ ≤ min init a := ih _
    _ ≤ init := Nat.min_le_left _ _

theorem foldl_min_le_mem : ∀ (l : List Nat) (init x : Nat),
    x ∈ l → l.foldl min init ≤ x := by
  intro l
  induction l with
  | nil => intro init x h; cases h
  | cons a l ih =>
    intro init x h
    rcases List.mem_cons.mp h with h | h
    · subst h
      calc (x :: l).foldl min init = l.foldl min (min init x) := rfl
      _ ≤ min init x := foldl_min_le_init _ _
      _ ≤ x := Nat.min_le_right _ _
    · exact ih (min init a) x h

theorem le_foldl_min : ∀ (l : List Nat) (init q : Nat),
    q ≤ init → (∀ x ∈ l, q ≤ x) → q ≤ l.foldl min init := by
  intro l
  induction l with
  | nil => intro init q h _; simpa using h
  | cons a l ih =>
    intro init q h hall
    exact ih (min init a) q (le_min h (hall a (by simp)))
      (fun x hx => hall x (by simp [hx]))

theorem foldl_min_eq (l : List Nat) (init q : Nat)
    (hmem : q ∈ l) (hall : ∀ x ∈ l, q ≤ x) (hinit : q ≤ init) :
    l.foldl min init = q :=
  Nat.le_antisymm (foldl_min_le_mem l init q hmem)
    (le_foldl_min l init q hinit hall)

end FoldlMinLemmas

section ParseSupport

open BarcodeDecoder

theorem getF_empty (f : DataField) : getF emptyRecord f = none := by
  cases f <;> rfl

/-- A line carries the given code under the line regex. -/
def lineHasCode (code l : List Char) : Bool :=
  match BarcodeDecoder.lineMatch l with
  | some pr => pr.1 == code
  | none => false

theorem lfv_cons (f : DataField) (l : List Char) (ls : List (List Char)) :
    lastFieldValue f (l :: ls) =
      match lastFieldValue f ls with
      | some v => some v
      | none => lfvStep f none l := by
  rw [lastFieldValue_eq_foldl, lastFieldValue_eq_foldl]
  show ls.foldl (lfvStep f) (lfvStep f none l) = _
  rw [lfv_foldl_acc f ls (lfvStep f none l)]

set_option maxHeartbeats 1000000 in
theorem fieldMapping_lastName (code : List Char)
    (h : fieldMapping code = some .lastName) : code = ['D', 'C', 'S'] := by
  unfold fieldMapping at h
  split_ifs at h <;> first | assumption | exact absurd h (by decide)

theorem lfv_isSome_of_mem (f : DataField) (lines : List (List Char))
    (l code v : List Char) (hmem : l ∈ lines)
    (hline : lineMatch l = some (code, v)) (hmap : fieldMapping code = some f) :
    (lastFieldValue f lines).isSome = true := by
  induction lines with
  | nil => cases hmem
  | cons l0 ls ih =>
    rw [lfv_cons]
    cases hls : lastFieldValue f ls with
    | some w => rfl
    | none =>
      rcases List.mem_cons.mp hmem with h0 | h0
      · subst h0
        show (lfvStep f none l).isSome = true
        unfold lfvStep
        rw [hline]
        simp [hmap]
      · have := ih h0
        rw [hls] at this
        cases this

theorem lfv_mem (f : DataField) (lines : List (List Char)) (v : List Char)
    (h : lastFieldValue f lines = some v) :
    ∃ l ∈ lines, ∃ code, lineMatch l = some (code, v) ∧
      fieldMapping code = some f := by
  induction lines with
  | nil => cases h
  | cons l0 ls ih =>
    rw [lfv_cons] at h
    cases hls : lastFieldValue f ls with
    | some w =>
      rw [hls] at h
      obtain ⟨l, hl, code, hline, hmap⟩ := ih (hls.trans (by cases h; rfl))
      exact ⟨l, by simp [hl], code, hline, hmap⟩
    | none =>
      rw [hls] at h
      show ∃ l ∈ l0 :: ls, _
      unfold lfvStep at h
      cases hline : lineMatch l0 with
      | none => rw [hline] at h; cases h
      | some pr =>
        obtain ⟨code, value⟩ := pr
        rw [hline] at h
        cases hmap : fieldMapping code with
        | none => simp [hmap] at h
        | some g =>
          by_cases hg : g = f
          · simp only [hmap, if_pos hg] at h
            cases h
            exact ⟨l0, by simp, code, hline, by rw [hmap, hg]⟩
          · simp only [hmap, if_neg hg] at h
            cases h

end ParseSupport

/-- Claim C2: for every 8-character date string the normalizer reads it as
YYYYMMDD when the first two characters are "19" or "20" and as MMDDYYYY
otherwise, re-emitting it as YYYY-MM-DD in both cases; in particular
"06151985" becomes "1985-06-15". -/
theorem claim2_formatDate_disambiguation :
    (∀ c1 c2 c3 c4 c5 c6 c7 c8 : Char,
      BarcodeDecoder.formatDate [c1, c2, c3, c4, c5, c6, c7, c8] =
        if (c1 = '1' ∧ c2 = '9') ∨ (c1 = '2' ∧ c2 = '0') then
          [c1, c2, c3, c4, '-', c5, c6, '-', c7, c8]
        else [c5, c6, c7, c8, '-', c1, c2, '-', c3, c4])
    ∧ BarcodeDecoder.formatDate (str "06151985") = str "1985-06-15"
    ∧ BarcodeDecoder.formatDate (str "19850615") = str "1985-06-15" := by
  refine ⟨?_, by decide, by decide⟩
  intro c1 c2 c3 c4 c5 c6 c7 c8
  have e19 : str "19" = ['1', '9'] := rfl
  have e20 : str "20" = ['2', '0'] := rfl
  unfold BarcodeDecoder.formatDate
  rw [e19, e20]
  rw [if_pos (by rfl : ([c1, c2, c3, c4, c5, c6, c7, c8] : List Char).length = 8)]
  by_cases h : (c1 = '1' ∧ c2 = '9') ∨ (c1 = '2' ∧ c2 = '0')
  · rw [if_pos h, if_pos]
    · rfl
    · simp only [startsWith, Bool.and_true, Bool.or_eq_true, Bool.and_eq_true,
        beq_iff_eq]
      exact h.imp (fun hh => ⟨hh.1.symm, hh.2.symm⟩)
        (fun hh => ⟨hh.1.symm, hh.2.symm⟩)
  · rw [if_neg h, if_neg]
    · rfl
    · simp only [startsWith, Bool.and_true, Bool.or_eq_true, Bool.and_eq_true,
        beq_iff_eq]
      intro hc
      exact h (hc.imp (fun hh => ⟨hh.1.symm, hh.2.symm⟩)
        (fun hh => ⟨hh.1.symm, hh.2.symm⟩))

/-- Claim C3 counterexample: the claim "every input that is not exactly 8
digits passes through unchanged" fails — the 8-character non-digit string
"ABCDEFGH" is reformatted to "EFGH-AB-CD" (the MMDDYYYY slicing branch),
not returned unchanged, because the source only checks the length. -/
theorem claim3_counterexample_eight_letters :
    BarcodeDecoder.formatDate (str "ABCDEFGH") ≠ str "ABCDEFGH" ∧
    BarcodeDecoder.formatDate (str "ABCDEFGH") = str "EFGH-AB-CD" := by
  constructor <;> decide

/-- Claim C3 (amended): for every input string whose LENGTH is not exactly
8 the date normalizer returns it unchanged and never raises; 8-character
strings are always sliced even when they are not digits, so a DBB value of
"ABCDEFGH" yields dateOfBirth "EFGH-AB-CD" rather than passing through. -/
theorem claim3_amended_passthrough (s : List Char) (h : s.length ≠ 8) :
    BarcodeDecoder.formatDate s = s := by
  unfold BarcodeDecoder.formatDate
  rw [if_neg h]

/-- Witness for claim C3 (amended) at the concrete input "ABC". -/
theorem claim3_amended_passthrough_witness :
    BarcodeDecoder.formatDate (str "ABC") = str "ABC" :=
  claim3_amended_passthrough (str "ABC") (by decide)

/-- Claim C9: the public decodeBarcode operation ignores its input — every
pair of inputs yields identical outcomes, always a success (never a
rejection) carrying the fixed mock record (firstName "John", lastName
"Doe", licenseNumber "D12345678", ...) with confidence 0.92. -/
theorem claim9_decodeBarcode_constant :
    (∀ s t : List Char,
      BarcodeDecoder.decodeBarcode s = BarcodeDecoder.decodeBarcode t)
    ∧ (∀ s : List Char, BarcodeDecoder.decodeBarcode s =
        ⟨true, some BarcodeDecoder.mockData, some ((92 : ℚ) / 100), none⟩)
    ∧ BarcodeDecoder.mockData.firstName = some (str "John")
    ∧ BarcodeDecoder.mockData.lastName = some (str "Doe")
    ∧ BarcodeDecoder.mockData.licenseNumber = some (str "D12345678") :=
  ⟨fun _ _ => rfl, fun _ => rfl, rfl, rfl, rfl⟩

/-- Claim C10: in the line-oriented parse, the value stored for a field is
the one from the LAST line whose (known) code maps to that field — later
matching lines overwrite earlier ones — with the date fields additionally
run through the date formatter when non-empty after trimming. -/
theorem claim10_last_line_wins (raw : List Char) (f : DataField) :
    getF (BarcodeDecoder.parseAAMVAData raw) f =
      match lastFieldValue f (splitOn '\n' raw) with
      | some v =>
        if f = .dateOfBirth ∨ f = .expirationDate then
          if (trim v).isEmpty then some (trim v)
          else some (BarcodeDecoder.formatDate (trim v))
        else some (trim v)
      | none => none := by
  rw [show BarcodeDecoder.parseAAMVAData raw =
    BarcodeDecoder.dateFixup
      (BarcodeDecoder.parseLoop (splitOn '\n' raw) emptyRecord) from rfl]
  rw [BarcodeDecoder.dateFixup_getF, BarcodeDecoder.parseLoop_getF, getF_empty]
  by_cases hf : f = .dateOfBirth ∨ f = .expirationDate
  · rw [if_pos hf]
    cases hl : lastFieldValue f (splitOn '\n' raw) with
    | none => simp [hf]
    | some v => simp [hf]
  · rw [if_neg hf]
    cases hl : lastFieldValue f (splitOn '\n' raw) with
    | none => simp [hf]
    | some v => simp [hf]

section SegmenterSupport

/-- The first successful extraction among an ordered list of codes. -/
def firstExtract (payload : List Char) (codes : List (List Char)) :
    Option (List Char) :=
  codes.foldr
    (fun c acc =>
      match SpecModel.extractField payload c with
      | some v => some v
      | none => acc)
    none

theorem segStep_getF_of_some (payload : List Char) (r : LicenseRecord)
    (e : List Char × DataField) (f : DataField) (v : List Char)
    (h : getF r f = some v) :
    getF (SpecModel.segStep payload r e) f = some v := by
  unfold SpecModel.segStep
  cases hre : getF r e.2 with
  | some w => exact h
  | none =>
    cases hex : SpecModel.extractField payload e.1 with
    | none => exact h
    | some w =>
      by_cases hef : e.2 = f
      · rw [hef] at hre; rw [hre] at h; cases h
      · rw [BarcodeDecoder.getF_setF_ne r f e.2 w (fun hc => hef hc.symm)]
        exact h

theorem segFold_getF (payload : List Char) :
    ∀ (entries : List (List Char × DataField)) (r : LicenseRecord)
      (f : DataField),
      getF (entries.foldl (SpecModel.segStep payload) r) f =
        match getF r f with
        | some v => some v
        | none =>
          firstExtract payload
            ((entries.filter (fun e => decide (e.2 = f))).map (fun e => e.1)) := by
  intro entries
  induction entries with
  | nil =>
    intro r f
    cases h : getF r f <;> simp [firstExtract, h]
  | cons e es ih =>
    intro r f
    show getF (es.foldl (SpecModel.segStep payload) (SpecModel.segStep payload r e)) f = _
    rw [ih (SpecModel.segStep payload r e) f]
    cases hrf : getF r f with
    | some v =>
      rw [segStep_getF_of_some payload r e f v hrf]
    | none =>
      by_cases hef : e.2 = f
      · rw [List.filter_cons_of_pos (by simpa using hef)]
        unfold SpecModel.segStep
        rw [hef, hrf]
        cases hex : SpecModel.extractField payload e.1 with
        | some w =>
          rw [BarcodeDecoder.getF_setF_same]
          show some w = firstExtract payload (e.1 :: _)
          unfold firstExtract
          simp [hex]
        | none =>
          rw [hrf]
          show firstExtract payload _ = firstExtract payload (e.1 :: _)
          unfold firstExtract
          simp [hex]
      · rw [List.filter_cons_of_neg (by simpa using hef)]
        unfold SpecModel.segStep
        cases hre : getF r e.2 with
        | some w => rw [hrf]
        | none =>
          cases hex : SpecModel.extractField payload e.1 with
          | some w =>
            rw [BarcodeDecoder.getF_setF_ne r f e.2 w (fun hc => hef hc.symm), hrf]
          | none => rw [hrf]

end SegmenterSupport

/-- Claim C7: when both the primary last-name code DCS and the legacy alias
DCT occur, the extracted lastName is the one determined by DCS, never DCT.
In the shipped line parser DCT is not even a recognised code
(`fieldMapping` has no DCT entry), so any payload containing both a DCS
line and a DCT line gets its lastName from a DCS line; in the spec-modelled
segmenter, where the alias exists, the table order makes DCS take
precedence and the alias fill in only when DCS extracts nothing. -/
theorem claim7_dcs_precedes_dct :
    BarcodeDecoder.fieldMapping (str "DCT") = none
    ∧ (∀ raw : List Char,
        (splitOn '\n' raw).any (lineHasCode (str "DCS")) = true →
        (splitOn '\n' raw).any (lineHasCode (str "DCT")) = true →
        ∃ l ∈ splitOn '\n' raw, ∃ v,
          BarcodeDecoder.lineMatch l = some (str "DCS", v) ∧
          getF (BarcodeDecoder.parseAAMVAData raw) .lastName = some (trim v))
    ∧ (∀ payload : List Char,
        getF (SpecModel.segmentExtract payload) .lastName =
          match SpecModel.extractField payload (str "DCS") with
          | some v => some v
          | none => SpecModel.extractField payload (str "DCT")) := by
  refine ⟨by decide, ?_, ?_⟩
  · intro raw h1 h2
    rw [List.any_eq_true] at h1
    obtain ⟨l, hl, hcode⟩ := h1
    unfold lineHasCode at hcode
    cases hlm : BarcodeDecoder.lineMatch l with
    | none => rw [hlm] at hcode; cases hcode
    | some pr =>
      obtain ⟨code, v⟩ := pr
      rw [hlm] at hcode
      have hcd : code = str "DCS" := by simpa using hcode
      subst hcd
      have hmap : BarcodeDecoder.fieldMapping (str "DCS")
          = some DataField.lastName := by decide
      have hsome := lfv_isSome_of_mem DataField.lastName (splitOn '\n' raw)
        l (str "DCS") v hl hlm hmap
      rw [Option.isSome_iff_exists] at hsome
      obtain ⟨w, hw⟩ := hsome
      obtain ⟨l0, hl0, code0, hline0, hmap0⟩ :=
        lfv_mem DataField.lastName (splitOn '\n' raw) w hw
      have hcd0 : code0 = str "DCS" :=
        fieldMapping_lastName code0 hmap0
      subst hcd0
      refine ⟨l0, hl0, w, hline0, ?_⟩
      rw [show BarcodeDecoder.parseAAMVAData raw =
        BarcodeDecoder.dateFixup
          (BarcodeDecoder.parseLoop (splitOn '\n' raw) emptyRecord) from rfl]
      rw [BarcodeDecoder.dateFixup_getF, BarcodeDecoder.parseLoop_getF,
        getF_empty]
      rw [if_neg (by intro hc; rcases hc with hc | hc <;> cases hc)]
      rw [hw]
  · intro payload
    show getF (List.foldl (SpecModel.segStep payload) emptyRecord
      SpecModel.specFieldTable) DataField.lastName = _
    rw [segFold_getF payload SpecModel.specFieldTable emptyRecord
      DataField.lastName, getF_empty]
    have htable :
        ((SpecModel.specFieldTable.filter
          (fun e => decide (e.2 = DataField.lastName))).map (fun e => e.1)) =
        [str "DCS", str "DCT"] := by decide
    rw [htable]
    show (match SpecModel.extractField payload (str "DCS") with
      | some v => some v
      | none =>
        match SpecModel.extractField payload (str "DCT") with
        | some v => some v
        | none => none) = _
    cases SpecModel.extractField payload (str "DCS") with
    | some v => rfl
    | none => cases SpecModel.extractField payload (str "DCT") <;> rfl

/-- Witness for claim C7 at the payload "DCSDOE\nDCTSMITH": the DCS line
determines the last name even though a DCT line follows. -/
theorem claim7_dcs_precedes_dct_witness :
    ∃ l ∈ splitOn '\n' (str "DCSDOE\nDCTSMITH"), ∃ v,
      BarcodeDecoder.lineMatch l = some (str "DCS", v) ∧
      getF (BarcodeDecoder.parseAAMVAData (str "DCSDOE\nDCTSMITH"))
        .lastName = some (trim v) :=
  claim7_dcs_precedes_dct.2.1 (str "DCSDOE\nDCTSMITH") (by decide) (by decide)

section HeaderSegmenterSupport

theorem occursAt_lt_length' (pat s : List Char) (q : Nat)
    (hne : pat ≠ []) (h : occursAt pat s q) : q < s.length := by
  cases pat with
  | nil => exact absurd rfl hne
  | cons a pat' => exact occursAt_lt_length a pat' s q h

theorem indexOfSub_none_of_no_occur (pat s : List Char) (hne : pat ≠ [])
    (h : ∀ r < s.length, ¬ occursAt pat s r) :
    indexOfSub pat s = none := by
  rw [indexOfSub_none_iff]
  intro r hocc
  exact h r (occursAt_lt_length' pat s r hne hocc) hocc

theorem extractField_ne_some_nil (payload code : List Char) :
    SpecModel.extractField payload code ≠ some [] := by
  unfold SpecModel.extractField
  cases h : indexOfSub code payload with
  | none => intro hc; cases hc
  | some p =>
    show (if _ = ([] : List Char) then none else _) ≠ _
    split
    · intro hc; cases hc
    · intro hc
      have := Option.some.inj hc
      simp_all

theorem firstExtract_ne_some_nil (payload : List Char) :
    ∀ codes : List (List Char), firstExtract payload codes ≠ some [] := by
  intro codes
  induction codes with
  | nil => intro hc; cases hc
  | cons c cs ih =>
    show (match SpecModel.extractField payload c with
      | some v => some v
      | none => firstExtract payload cs) ≠ some []
    cases hx : SpecModel.extractField payload c with
    | some v =>
      intro hc
      exact extractField_ne_some_nil payload c (hx.trans hc)
    | none => exact ih

end HeaderSegmenterSupport

/-- Claim C4: the decoder locates the start of the AAMVA payload by
searching for the literal substring "DL" first, then "ID" when "DL" is
absent, and with neither found it processes the entire original string;
this total function never raises and a missing header is not an error. -/
theorem claim4_header_locator :
    (∀ (raw : List Char) (p : Nat), firstOccurIs (str "DL") raw p →
      SpecModel.locateHeader raw = raw.drop p)
    ∧ (∀ (raw : List Char) (q : Nat),
        (∀ r < raw.length, ¬ occursAt (str "DL") raw r) →
        firstOccurIs (str "ID") raw q →
        SpecModel.locateHeader raw = raw.drop q)
    ∧ (∀ raw : List Char,
        (∀ r < raw.length, ¬ occursAt (str "DL") raw r) →
        (∀ r < raw.length, ¬ occursAt (str "ID") raw r) →
        SpecModel.locateHeader raw = raw) := by
  refine ⟨?_, ?_, ?_⟩
  · intro raw p h
    unfold SpecModel.locateHeader
    rw [(indexOfSub_some_iff (str "DL") raw p).mpr h]
  · intro raw q hdl h
    unfold SpecModel.locateHeader
    rw [indexOfSub_none_of_no_occur (str "DL") raw (by decide) hdl,
      (indexOfSub_some_iff (str "ID") raw q).mpr h]
  · intro raw hdl hid
    unfold SpecModel.locateHeader
    rw [indexOfSub_none_of_no_occur (str "DL") raw (by decide) hdl,
      indexOfSub_none_of_no_occur (str "ID") raw (by decide) hid]

/-- Witness for claim C4 at the concrete input "XXDLABC": the "DL" header
is found first at index 2, between garbage and payload. -/
theorem claim4_header_locator_witness :
    SpecModel.locateHeader (str "XXDLABC") = (str "XXDLABC").drop 2 :=
  claim4_header_locator.1 (str "XXDLABC") 2 (by decide)

/-- Claim C1: in the spec-modelled segmenter, for a known code occurring
first at `p` with the nearest other known code after `p + 3` occurring at
`q`, the extracted value is exactly the trimmed substring strictly between
the end of the code and `q`; an empty-after-trim value is omitted (`none`),
never stored, and consequently no field of the segmenter's record ever
holds the empty string. -/
theorem claim1_segmenter_value_between_codes :
    (∀ (payload code : List Char) (f : DataField) (p q : Nat),
      (code, f) ∈ SpecModel.specFieldTable →
      firstOccurIs code payload p →
      (∃ e ∈ SpecModel.specFieldTable, e.1 ≠ code ∧ occursAt e.1 payload q) →
      p + 3 ≤ q →
      (∀ e ∈ SpecModel.specFieldTable, e.1 ≠ code →
        ∀ r < q, p + 3 ≤ r → ¬ occursAt e.1 payload r) →
      SpecModel.extractField payload code =
        (if trim ((payload.drop (p + 3)).take (q - (p + 3))) = [] then none
         else some (trim ((payload.drop (p + 3)).take (q - (p + 3))))))
    ∧ (∀ (payload : List Char) (f : DataField),
        getF (SpecModel.segmentExtract payload) f ≠ some []) := by
  constructor
  · intro payload code f p q htab hfirst hex hpq hmin
    unfold SpecModel.extractField
    rw [(indexOfSub_some_iff code payload p).mpr hfirst]
    show (if trim ((payload.drop (p + 3)).take
        (((SpecModel.specFieldTable.filter (fun e => e.1 ≠ code)).filterMap
          (fun e => indexOfFrom e.1 payload (p + 3))).foldl min payload.length
          - (p + 3))) = [] then none else _) = _
    obtain ⟨e, hemem, hene, heocc⟩ := hex
    have hq_len : q < payload.length := by
      have hne : e.1 ≠ [] := by
        have : ∀ e' ∈ SpecModel.specFieldTable, e'.1 ≠ ([] : List Char) := by
          decide
        exact this e hemem
      exact occursAt_lt_length' e.1 payload q hne heocc
    have hstop :
        ((SpecModel.specFieldTable.filter (fun e => e.1 ≠ code)).filterMap
          (fun e => indexOfFrom e.1 payload (p + 3))).foldl min payload.length
          = q := by
      apply foldl_min_eq
      · rw [List.mem_filterMap]
        refine ⟨e, ?_, ?_⟩
        · rw [List.mem_filter]
          exact ⟨hemem, by simpa using hene⟩
        · rw [indexOfFrom_some_iff]
          exact ⟨hpq, heocc, fun r hr hrq => hmin e hemem hene r hrq hr⟩
      · intro x hx
        rw [List.mem_filterMap] at hx
        obtain ⟨e', he'mem, he'⟩ := hx
        rw [List.mem_filter] at he'mem
        obtain ⟨he'tab, he'ne⟩ := he'mem
        rw [indexOfFrom_some_iff] at he'
        obtain ⟨hpx, hxocc, _⟩ := he'
        by_contra hlt
        push_neg at hlt
        exact hmin e' he'tab (by simpa using he'ne) x hlt hpx hxocc
      · exact Nat.le_of_lt hq_len
    rw [hstop]
  · intro payload f
    show getF (List.foldl (SpecModel.segStep payload) emptyRecord
      SpecModel.specFieldTable) f ≠ some []
    rw [segFold_getF payload SpecModel.specFieldTable emptyRecord f, getF_empty]
    exact firstExtract_ne_some_nil payload _

/-- Witness for claim C1 at the payload "DAQABC123DCSDOE": the DAQ value is
the trimmed substring up to the DCS occurrence at index 9, i.e. "ABC123". -/
theorem claim1_segmenter_value_between_codes_witness :
    SpecModel.extractField (str "DAQABC123DCSDOE") (str "DAQ")
      = some (str "ABC123") := by
  have h := claim1_segmenter_value_between_codes.1 (str "DAQABC123DCSDOE")
    (str "DAQ") DataField.licenseNumber 0 9 (by decide) (by decide)
    (by decide) (by decide) (by decide)
  exact h.trans (by decide)

/-- Claim C5: decoding "DLDAQD12345678DCSDOEDACJOHNDBB19850615DBA20270615"
succeeds with exactly the record {licenseNumber D12345678, lastName DOE,
firstName JOHN, dateOfBirth 1985-06-15, expirationDate 2027-06-15} at
confidence 0.95; and 0.95 is the fixed confidence attached to every
primary-strategy and every secondary-strategy success. -/
theorem claim5_end_to_end_sample :
    SpecModel.decodePayload
        (str "DLDAQD12345678DCSDOEDACJOHNDBB19850615DBA20270615") =
      .success
        { firstName := some (str "JOHN")
          lastName := some (str "DOE")
          dateOfBirth := some (str "1985-06-15")
          licenseNumber := some (str "D12345678")
          expirationDate := some (str "2027-06-15") }
        ((95 : ℚ) / 100)
    ∧ (∀ raw : List Char,
        nonEmptyRecord (BarcodeDecoder.parseAAMVAData raw) = true →
        SpecModel.decodePayload raw =
          .success (BarcodeDecoder.parseAAMVAData raw) ((95 : ℚ) / 100))
    ∧ (∀ raw : List Char,
        nonEmptyRecord (BarcodeDecoder.parseAAMVAData raw) = false →
        nonEmptyRecord (SpecModel.headerStrategy raw) = true →
        SpecModel.decodePayload raw =
          .success (SpecModel.headerStrategy raw) ((95 : ℚ) / 100)) := by
  refine ⟨by rfl, ?_, ?_⟩
  · intro raw h
    unfold SpecModel.decodePayload
    rw [if_pos h]
  · intro raw h1 h2
    unfold SpecModel.decodePayload
    rw [if_neg (by simp [h1]), if_pos h2]

/-- Witness for claim C5's strategy-confidence conjuncts at the concrete
one-line payload "DAQX", which the primary line strategy decodes. -/
theorem claim5_end_to_end_sample_witness :
    SpecModel.decodePayload (str "DAQX") =
      .success (BarcodeDecoder.parseAAMVAData (str "DAQX")) ((95 : ℚ) / 100) :=
  claim5_end_to_end_sample.2.1 (str "DAQX") (by decide)

/-- Claim C6: decoding the empty string is a Failure with reason
AllStrategiesEmpty, and every Failure of the decoder carries that reason
and happens exactly when all three strategies extract zero fields. -/
theorem claim6_failure_iff_all_strategies_empty :
    SpecModel.decodePayload (str "") = .failure .AllStrategiesEmpty
    ∧ ∀ (raw : List Char) (reason : SpecModel.FailureReason),
        SpecModel.decodePayload raw = .failure reason ↔
          (reason = .AllStrategiesEmpty ∧
           nonEmptyRecord (BarcodeDecoder.parseAAMVAData raw) = false ∧
           nonEmptyRecord (SpecModel.headerStrategy raw) = false ∧
           nonEmptyRecord (SpecModel.patternStrategy raw) = false) := by
  refine ⟨by rfl, ?_⟩
  intro raw reason
  unfold SpecModel.decodePayload
  cases h1 : nonEmptyRecord (BarcodeDecoder.parseAAMVAData raw) with
  | true => simp [h1]
  | false =>
    cases h2 : nonEmptyRecord (SpecModel.headerStrategy raw) with
    | true => simp [h1, h2]
    | false =>
      cases h3 : nonEmptyRecord (SpecModel.patternStrategy raw) with
      | true => simp [h1, h2, h3]
      | false =>
        simp only [h1, h2, h3, Bool.false_eq_true, if_false]
        constructor
        · intro h
          cases h
          exact ⟨rfl, trivial, trivial, trivial⟩
        · rintro ⟨hr, -, -, -⟩
          rw [hr]

section CharLemmas

theorem charOfNat_toNat (n : Nat) (h : n < 55296) : (Char.ofNat n).toNat = n := by
  have hv : n.isValidChar := Or.inl h
  simp [Char.ofNat, hv, Char.ofNatAux, Char.toNat, UInt32.toNat, BitVec.toNat_ofNatLt]

theorem upChar_toNat_of_lower (c : Char)
    (h : 97 ≤ c.toNat ∧ c.toNat ≤ 122) : (upChar c).toNat = c.toNat - 32 := by
  unfold upChar
  rw [if_pos (by simp [h.1, h.2])]
  exact charOfNat_toNat _ (by omega)

theorem upChar_eq_of_not_lower (c : Char)
    (h : ¬(97 ≤ c.toNat ∧ c.toNat ≤ 122)) : upChar c = c := by
  unfold upChar
  rw [if_neg (by simpa using h)]

theorem lowChar_toNat_of_upper (c : Char)
    (h : 65 ≤ c.toNat ∧ c.toNat ≤ 90) : (lowChar c).toNat = c.toNat + 32 := by
  unfold lowChar
  rw [if_pos (by simp [h.1, h.2])]
  exact charOfNat_toNat _ (by omega)

theorem lowChar_eq_of_not_upper (c : Char)
    (h : ¬(65 ≤ c.toNat ∧ c.toNat ≤ 90)) : lowChar c = c := by
  unfold lowChar
  rw [if_neg (by simpa using h)]

theorem upChar_idem (c : Char) : upChar (upChar c) = upChar c := by
  by_cases h : 97 ≤ c.toNat ∧ c.toNat ≤ 122
  · have ht := upChar_toNat_of_lower c h
    exact upChar_eq_of_not_lower (upChar c) (by omega)
  · rw [upChar_eq_of_not_lower c h, upChar_eq_of_not_lower c h]

theorem lowChar_idem (c : Char) : lowChar (lowChar c) = lowChar c := by
  by_cases h : 65 ≤ c.toNat ∧ c.toNat ≤ 90
  · have ht := lowChar_toNat_of_upper c h
    exact lowChar_eq_of_not_upper (lowChar c) (by omega)
  · rw [lowChar_eq_of_not_upper c h, lowChar_eq_of_not_upper c h]

theorem ws_toNat (c : Char) :
    isJsWhitespace c = true ↔
      (c.toNat = 32 ∨ c.toNat = 9 ∨ c.toNat = 10 ∨ c.toNat = 13 ∨
       c.toNat = 11 ∨ c.toNat = 12) := by
  unfold isJsWhitespace
  simp
  tauto

theorem isJsWhitespace_upChar (c : Char) :
    isJsWhitespace (upChar c) = isJsWhitespace c := by
  by_cases h : 97 ≤ c.toNat ∧ c.toNat ≤ 122
  · have ht := upChar_toNat_of_lower c h
    have h1 : isJsWhitespace (upChar c) = false := by
      rw [← Bool.not_eq_true, ws_toNat]
      omega
    have h2 : isJsWhitespace c = false := by
      rw [← Bool.not_eq_true, ws_toNat]
      omega
    rw [h1, h2]
  · rw [upChar_eq_of_not_lower c h]

theorem isJsWhitespace_lowChar (c : Char) :
    isJsWhitespace (lowChar c) = isJsWhitespace c := by
  by_cases h : 65 ≤ c.toNat ∧ c.toNat ≤ 90
  · have ht := lowChar_toNat_of_upper c h
    have h1 : isJsWhitespace (lowChar c) = false := by
      rw [← Bool.not_eq_true, ws_toNat]
      omega
    have h2 : isJsWhitespace c = false := by
      rw [← Bool.not_eq_true, ws_toNat]
      omega
    rw [h1, h2]
  · rw [lowChar_eq_of_not_upper c h]

theorem isDigitCh_toNat (c : Char) :
    isDigitCh c = true ↔ (48 ≤ c.toNat ∧ c.toNat ≤ 57) := by
  unfold isDigitCh
  simp

theorem digit_beq_dash_false (c : Char) (h : isDigitCh c = true) :
    (c == '-') = false := by
  rw [beq_eq_false_iff_ne]
  intro hc
  subst hc
  cases h

theorem digit_beq_slash_false (c : Char) (h : isDigitCh c = true) :
    (c == '/') = false := by
  rw [beq_eq_false_iff_ne]
  intro hc
  subst hc
  cases h

end CharLemmas

section EasyIdempotence

theorem map_upChar_idem (l : List Char) :
    (l.map upChar).map upChar = l.map upChar := by
  rw [List.map_map]
  exact List.map_congr_left (fun c _ => upChar_idem c)

theorem zipNormalize_idem (s : List Char) :
    OCRService.zipNormalize (OCRService.zipNormalize s)
      = OCRService.zipNormalize s := by
  unfold OCRService.zipNormalize
  rw [List.filter_filter]
  simp

theorem stateNormalize_idem (s : List Char) :
    OCRService.stateNormalize (OCRService.stateNormalize s)
      = OCRService.stateNormalize s := map_upChar_idem s

theorem eyeColorNormalize_idem (s : List Char) :
    OCRService.eyeColorNormalize (OCRService.eyeColorNormalize s)
      = OCRService.eyeColorNormalize s := map_upChar_idem s

theorem licenseNormalize_idem (s : List Char) :
    OCRService.licenseNormalize (OCRService.licenseNormalize s)
      = OCRService.licenseNormalize s := by
  unfold OCRService.licenseNormalize
  have hfilter :
      ((s.filter (fun c => !isJsWhitespace c)).map upChar).filter
        (fun c => !isJsWhitespace c)
      = (s.filter (fun c => !isJsWhitespace c)).map upChar := by
    apply List.filter_eq_self.mpr
    intro c hc
    rw [List.mem_map] at hc
    obtain ⟨c0, hc0, hup⟩ := hc
    rw [List.mem_filter] at hc0
    subst hup
    rw [Bool.not_eq_true', isJsWhitespace_upChar]
    simpa using hc0.2
  rw [hfilter, map_upChar_idem]

theorem genderNormalize_eq (t : List Char) :
    OCRService.genderNormalize t =
      if startsWith ['F']
          (if startsWith ['M'] (t.map upChar) = true then ['M']
           else t.map upChar) = true
      then ['F']
      else
        (if startsWith ['M'] (t.map upChar) = true then ['M']
         else t.map upChar) := rfl

theorem genderNormalize_idem (s : List Char) :
    OCRService.genderNormalize (OCRService.genderNormalize s)
      = OCRService.genderNormalize s := by
  by_cases hm : startsWith ['M'] (s.map upChar) = true
  · have h1 : OCRService.genderNormalize s = ['M'] := by
      rw [genderNormalize_eq s, if_pos hm, if_neg (by decide)]
    rw [h1]
    decide
  · by_cases hf : startsWith ['F'] (s.map upChar) = true
    · have h1 : OCRService.genderNormalize s = ['F'] := by
        rw [genderNormalize_eq s, if_neg hm, if_pos hf]
      rw [h1]
      decide
    · have h1 : OCRService.genderNormalize s = s.map upChar := by
        rw [genderNormalize_eq s, if_neg hm, if_neg hf]
      rw [h1, genderNormalize_eq, map_upChar_idem, if_neg hm, if_neg hf]

theorem decFormatDate_of_length_ne (s : List Char) (h : s.length ≠ 8) :
    BarcodeDecoder.formatDate s = s := by
  unfold BarcodeDecoder.formatDate
  rw [if_neg h]

theorem decFormatDate_length (s : List Char) (h : s.length = 8) :
    (BarcodeDecoder.formatDate s).length = 10 := by
  unfold BarcodeDecoder.formatDate
  rw [if_pos h]
  split <;> simp [List.length_take, List.length_drop, h]

theorem decFormatDate_idem (s : List Char) :
    BarcodeDecoder.formatDate (BarcodeDecoder.formatDate s)
      = BarcodeDecoder.formatDate s := by
  by_cases h : s.length = 8
  · exact decFormatDate_of_length_ne _ (by rw [decFormatDate_length s h]; omega)
  · rw [decFormatDate_of_length_ne s h]
    exact decFormatDate_of_length_ne s h

end EasyIdempotence

section TrimLemmas

theorem dropWhile_eq_self_of_head (l : List Char)
    (h : ∀ c, l.head? = some c → isJsWhitespace c = false) :
    l.dropWhile isJsWhitespace = l := by
  cases l with
  | nil => rfl
  | cons c t =>
    rw [List.dropWhile_cons]
    rw [h c rfl]
    simp

theorem trim_eq_self_of_ends (s : List Char)
    (h1 : ∀ c, s.head? = some c → isJsWhitespace c = false)
    (h2 : ∀ c, s.getLast? = some c → isJsWhitespace c = false) :
    trim s = s := by
  unfold trim
  rw [dropWhile_eq_self_of_head s h1]
  rw [dropWhile_eq_self_of_head s.reverse
    (fun c hc => h2 c (by rwa [List.head?_reverse] at hc))]
  rw [List.reverse_reverse]

theorem wsFree_trim (s : List Char)
    (h : ∀ c ∈ s, isJsWhitespace c = false) : trim s = s := by
  apply trim_eq_self_of_ends
  · intro c hc
    exact h c (List.mem_of_mem_head? hc)
  · intro c hc
    apply h c
    rw [← List.head?_reverse] at hc
    exact (List.mem_reverse).mp (List.mem_of_mem_head? hc)

end TrimLemmas

section DigitStringLemmas

theorem digitChar_isDigit : ∀ k, k < 10 → isDigitCh (Nat.digitChar k) = true := by
  decide

theorem ndAux_digits : ∀ (fuel n : Nat), n ≤ fuel →
    ∀ c ∈ OCRService.natDigitsAux fuel n, isDigitCh c = true := by
  intro fuel
  induction fuel with
  | zero =>
    intro n hn c hc
    have hn0 : n = 0 := by omega
    subst hn0
    simp only [OCRService.natDigitsAux, List.mem_singleton] at hc
    subst hc
    decide
  | succ f ih =>
    intro n hn c hc
    simp only [OCRService.natDigitsAux] at hc
    by_cases h10 : n < 10
    · rw [if_pos h10] at hc
      simp only [List.mem_singleton] at hc
      subst hc
      exact digitChar_isDigit n h10
    · rw [if_neg h10] at hc
      rw [List.mem_append] at hc
      rcases hc with hc | hc
      · exact ih (n / 10) (by omega) c hc
      · simp only [List.mem_singleton] at hc
        subst hc
        exact digitChar_isDigit (n % 10) (by omega)

theorem natDigits_digits (n : Nat) :
    ∀ c ∈ OCRService.natDigits n, isDigitCh c = true :=
  ndAux_digits n n (Nat.le_refl n)

theorem ndAux_len1 (fuel n : Nat) (h : n < 10) :
    (OCRService.natDigitsAux fuel n).length = 1 := by
  cases fuel with
  | zero => rfl
  | succ f =>
    simp only [OCRService.natDigitsAux]
    rw [if_pos h]
    rfl

theorem natDigits_length_le2 (n : Nat) (h : n ≤ 99) :
    (OCRService.natDigits n).length = 1 ∨ (OCRService.natDigits n).length = 2 := by
  unfold OCRService.natDigits
  by_cases h10 : n < 10
  · left; exact ndAux_len1 n n h10
  · right
    cases n with
    | zero => omega
    | succ f =>
      simp only [OCRService.natDigitsAux]
      rw [if_neg h10]
      rw [List.length_append, ndAux_len1 f ((f + 1) / 10) (by omega)]
      rfl

theorem pad2_length (n : Nat) (h : n ≤ 99) : (OCRService.pad2 n).length = 2 := by
  unfold OCRService.pad2
  rcases natDigits_length_le2 n h with h1 | h1
  · rw [if_pos (by omega)]
    simp [h1]
  · rw [if_neg (by omega)]
    exact h1

theorem pad2_digits (n : Nat) :
    ∀ c ∈ OCRService.pad2 n, isDigitCh c = true := by
  intro c hc
  unfold OCRService.pad2 at hc
  split at hc
  · rcases List.mem_cons.mp hc with hc | hc
    · subst hc; decide
    · exact natDigits_digits n c hc
  · exact natDigits_digits n c hc

theorem intDigits_chars (y : Int) :
    ∀ c ∈ OCRService.intDigits y, isDigitCh c = true ∨ c = '-' := by
  intro c hc
  unfold OCRService.intDigits at hc
  split at hc
  · rcases List.mem_cons.mp hc with hc | hc
    · right; exact hc
    · left; exact natDigits_digits _ c hc
  · left; exact natDigits_digits _ c hc

theorem fmtYMD_chars (y : Int) (m d : Nat) :
    ∀ c ∈ OCRService.fmtYMD (y, m, d), isDigitCh c = true ∨ c = '-' := by
  intro c hc
  have hc' : c ∈ OCRService.intDigits y ++ '-' ::
      (OCRService.pad2 m ++ '-' :: OCRService.pad2 d) := hc
  clear hc
  rename' hc' => hc
  rw [List.mem_append] at hc
  rcases hc with hc | hc
  · exact intDigits_chars y c hc
  · rcases List.mem_cons.mp hc with hc | hc
    · right; exact hc
    · rw [List.mem_append] at hc
      rcases hc with hc | hc
      · left; exact pad2_digits m c hc
      · rcases List.mem_cons.mp hc with hc | hc
        · right; exact hc
        · left; exact pad2_digits d c hc

end DigitStringLemmas

section CalendarBounds

theorem civil_doy_le (doe : Nat) (h : doe < 146097) :
    doe - (365 * ((doe - doe / 1460 + doe / 36524 - doe / 146096) / 365)
      + ((doe - doe / 1460 + doe / 36524 - doe / 146096) / 365) / 4
      - ((doe - doe / 1460 + doe / 36524 - doe / 146096) / 365) / 100) ≤ 465 := by
  omega

theorem civilFromDays_bounds (z : Int) :
    (OCRService.civilFromDays z).2.1 ≤ 99 ∧ (OCRService.civilFromDays z).2.2 ≤ 99 := by
  have hdoe : ((z + 719468) - (z + 719468) / 146097 * 146097).toNat < 146097 := by
    omega
  have hdoy := civil_doy_le _ hdoe
  unfold OCRService.civilFromDays
  dsimp only
  constructor
  · split <;> omega
  · omega

end CalendarBounds

section PatternLemmas

open OCRService

theorem length_eq_four {α : Type} (l : List α) (h : l.length = 4) :
    ∃ a b c d, l = [a, b, c, d] := by
  match l, h with
  | [a, b, c, d], _ => exact ⟨a, b, c, d, rfl⟩

theorem isPat1_slash_mem (l : List Char) (h : isPat1 l = true) : '/' ∈ l := by
  unfold isPat1 at h
  simp only [Bool.and_eq_true, beq_iff_eq, decide_eq_true_eq] at h
  obtain ⟨⟨⟨⟨⟨⟨⟨⟨⟨⟨hlen, h0⟩, h1⟩, hs2⟩, h3⟩, h4⟩, hs5⟩, h6⟩, h7⟩, h8⟩, h9⟩ := h
  have h2lt : 2 < l.length := by omega
  rw [List.getD_eq_getElem l ' ' h2lt] at hs2
  rw [← hs2]
  exact List.getElem_mem h2lt

theorem isPat4_slash_mem (l : List Char) (h : isPat4 l = true) : '/' ∈ l := by
  unfold isPat4 at h
  simp only [Bool.and_eq_true, beq_iff_eq, decide_eq_true_eq] at h
  obtain ⟨⟨⟨⟨⟨⟨⟨⟨⟨⟨hlen, h0⟩, h1⟩, h2⟩, h3⟩, hs4⟩, h5⟩, h6⟩, hs7⟩, h8⟩, h9⟩ := h
  have h4lt : 4 < l.length := by omega
  rw [List.getD_eq_getElem l ' ' h4lt] at hs4
  rw [← hs4]
  exact List.getElem_mem h4lt

theorem isPat3_digit2 (l : List Char) (h : isPat3 l = true) :
    isDigitCh (l.getD 2 ' ') = true := by
  unfold isPat3 at h
  simp only [Bool.and_eq_true, beq_iff_eq, decide_eq_true_eq] at h
  exact h.1.1.1.1.1.1.1.2

theorem isPat3_not_pat1 (l : List Char) (h : isPat3 l = true) :
    isPat1 l = false := by
  have hd := isPat3_digit2 l h
  unfold isPat1
  rw [digit_beq_slash_false _ hd]
  simp

theorem isPat3_not_pat2 (l : List Char) (h : isPat3 l = true) :
    isPat2 l = false := by
  have hd := isPat3_digit2 l h
  unfold isPat2
  rw [digit_beq_dash_false _ hd]
  simp

theorem isPat3_chars (l : List Char) (h : isPat3 l = true) :
    ∀ c ∈ l, isDigitCh c = true ∨ c = '-' := by
  unfold isPat3 at h
  simp only [Bool.and_eq_true, beq_iff_eq, decide_eq_true_eq] at h
  obtain ⟨⟨⟨⟨⟨⟨⟨⟨⟨⟨hlen, h0⟩, h1⟩, h2⟩, h3⟩, hs4⟩, h5⟩, h6⟩, hs7⟩, h8⟩, h9⟩ := h
  intro c hc
  obtain ⟨i, hi, hci⟩ := List.mem_iff_getElem.mp hc
  have hi10 : i < 10 := by omega
  subst hci
  interval_cases i
  · exact Or.inl (by rwa [List.getD_eq_getElem l ' ' (by omega)] at h0)
  · exact Or.inl (by rwa [List.getD_eq_getElem l ' ' (by omega)] at h1)
  · exact Or.inl (by rwa [List.getD_eq_getElem l ' ' (by omega)] at h2)
  · exact Or.inl (by rwa [List.getD_eq_getElem l ' ' (by omega)] at h3)
  · exact Or.inr (by rwa [List.getD_eq_getElem l ' ' (by omega)] at hs4)
  · exact Or.inl (by rwa [List.getD_eq_getElem l ' ' (by omega)] at h5)
  · exact Or.inl (by rwa [List.getD_eq_getElem l ' ' (by omega)] at h6)
  · exact Or.inr (by rwa [List.getD_eq_getElem l ' ' (by omega)] at hs7)
  · exact Or.inl (by rwa [List.getD_eq_getElem l ' ' (by omega)] at h8)
  · exact Or.inl (by rwa [List.getD_eq_getElem l ' ' (by omega)] at h9)

theorem isPat4_chars (l : List Char) (h : isPat4 l = true) :
    ∀ c ∈ l, isDigitCh c = true ∨ c = '/' := by
  unfold isPat4 at h
  simp only [Bool.and_eq_true, beq_iff_eq, decide_eq_true_eq] at h
  obtain ⟨⟨⟨⟨⟨⟨⟨⟨⟨⟨hlen, h0⟩, h1⟩, h2⟩, h3⟩, hs4⟩, h5⟩, h6⟩, hs7⟩, h8⟩, h9⟩ := h
  intro c hc
  obtain ⟨i, hi, hci⟩ := List.mem_iff_getElem.mp hc
  have hi10 : i < 10 := by omega
  subst hci
  interval_cases i
  · exact Or.inl (by rwa [List.getD_eq_getElem l ' ' (by omega)] at h0)
  · exact Or.inl (by rwa [List.getD_eq_getElem l ' ' (by omega)] at h1)
  · exact Or.inl (by rwa [List.getD_eq_getElem l ' ' (by omega)] at h2)
  · exact Or.inl (by rwa [List.getD_eq_getElem l ' ' (by omega)] at h3)
  · exact Or.inr (by rwa [List.getD_eq_getElem l ' ' (by omega)] at hs4)
  · exact Or.inl (by rwa [List.getD_eq_getElem l ' ' (by omega)] at h5)
  · exact Or.inl (by rwa [List.getD_eq_getElem l ' ' (by omega)] at h6)
  · exact Or.inr (by rwa [List.getD_eq_getElem l ' ' (by omega)] at hs7)
  · exact Or.inl (by rwa [List.getD_eq_getElem l ' ' (by omega)] at h8)
  · exact Or.inl (by rwa [List.getD_eq_getElem l ' ' (by omega)] at h9)

theorem fmtYMD_not_pat2 (y : Int) (m d : Nat) (hm : m ≤ 99) (hd : d ≤ 99) :
    isPat2 (fmtYMD (y, m, d)) = false := by
  obtain ⟨m0, m1, hm2⟩ := List.length_eq_two.mp (pad2_length m hm)
  obtain ⟨d0, d1, hd2⟩ := List.length_eq_two.mp (pad2_length d hd)
  have ho : fmtYMD (y, m, d) =
      intDigits y ++ '-' :: (pad2 m ++ '-' :: pad2 d) := rfl
  rw [ho, hm2, hd2]
  by_contra hne
  rw [Bool.not_eq_false] at hne
  unfold intDigits at hne
  split at hne
  · -- negative year: leading '-' where a digit is required
    have hlen : ('-' :: natDigits y.natAbs ++ '-' ::
        ([m0, m1] ++ '-' :: [d0, d1])).length = 10 := by
      unfold isPat2 at hne
      simp only [Bool.and_eq_true, decide_eq_true_eq] at hne
      exact hne.1.1.1.1.1.1.1.1.1.1
    have hnd : (natDigits y.natAbs).length = 3 := by
      simp [List.length_append] at hlen
      omega
    obtain ⟨n1, n2, n3, hnd3⟩ := List.length_eq_three.mp hnd
    rw [hnd3] at hne
    simp [isPat2, isDigitCh] at hne
  · -- nonnegative year: four digits, so position 2 is a digit, not '-'
    have hlen : (natDigits y.toNat ++ '-' ::
        ([m0, m1] ++ '-' :: [d0, d1])).length = 10 := by
      unfold isPat2 at hne
      simp only [Bool.and_eq_true, decide_eq_true_eq] at hne
      exact hne.1.1.1.1.1.1.1.1.1.1
    have hnd : (natDigits y.toNat).length = 4 := by
      simp [List.length_append] at hlen
      omega
    obtain ⟨a, b, c, e, hnd4⟩ := length_eq_four _ hnd
    have hcdig : isDigitCh c = true :=
      natDigits_digits y.toNat c (by rw [hnd4]; simp)
    rw [hnd4] at hne
    have hc : c = '-' := by
      unfold isPat2 at hne
      simp only [Bool.and_eq_true, beq_iff_eq, decide_eq_true_eq] at hne
      have := hne.1.1.1.1.1.1.1.2
      simpa using this
    rw [hc] at hcdig
    cases hcdig

end PatternLemmas

section OcrFormatDateIdem

open OCRService

/-- `OCRService.formatDate` with its `cleaned` binding laid out. -/
theorem ocrFormatDate_eq (s : List Char) :
    OCRService.formatDate s =
      (if isPat1 (s.filter (fun c => isDigitCh c || c == '/' || c == '-'))
       then dateFromMDY s
         (mdyOf (s.filter (fun c => isDigitCh c || c == '/' || c == '-')))
       else if isPat2 (s.filter (fun c => isDigitCh c || c == '/' || c == '-'))
       then dateFromMDY s
         (mdyOf (s.filter (fun c => isDigitCh c || c == '/' || c == '-')))
       else if isPat3 (s.filter (fun c => isDigitCh c || c == '/' || c == '-'))
       then s.filter (fun c => isDigitCh c || c == '/' || c == '-')
       else if isPat4 (s.filter (fun c => isDigitCh c || c == '/' || c == '-'))
       then (s.filter (fun c => isDigitCh c || c == '/' || c == '-')).map
         (fun c => if c == '/' then '-' else c)
       else s) := rfl

theorem slashToDash_digit (c : Char) (h : isDigitCh c = true) :
    (if c == '/' then '-' else c) = c := by
  rw [digit_beq_slash_false c h]
  simp

theorem isPat4_map_pat3 (l : List Char) (h : isPat4 l = true) :
    isPat3 (l.map (fun c => if c == '/' then '-' else c)) = true := by
  unfold isPat4 at h
  simp only [Bool.and_eq_true, beq_iff_eq, decide_eq_true_eq] at h
  obtain ⟨⟨⟨⟨⟨⟨⟨⟨⟨⟨hlen, h0⟩, h1⟩, h2⟩, h3⟩, hs4⟩, h5⟩, h6⟩, hs7⟩, h8⟩, h9⟩ := h
  unfold isPat3
  simp only [Bool.and_eq_true, decide_eq_true_eq]
  have hget : ∀ i, i < 10 →
      (l.map (fun c => if c == '/' then '-' else c)).getD i ' ' =
        (if l.getD i ' ' == '/' then '-' else l.getD i ' ') := by
    intro i hi
    rw [List.getD_eq_getElem (l.map _) ' ' (by simp; omega),
        List.getD_eq_getElem l ' ' (by omega)]
    simp
  refine ⟨⟨⟨⟨⟨⟨⟨⟨⟨⟨by simp [hlen], ?_⟩, ?_⟩, ?_⟩, ?_⟩, ?_⟩, ?_⟩, ?_⟩, ?_⟩, ?_⟩, ?_⟩
  · rw [hget 0 (by omega), slashToDash_digit _ h0]; exact h0
  · rw [hget 1 (by omega), slashToDash_digit _ h1]; exact h1
  · rw [hget 2 (by omega), slashToDash_digit _ h2]; exact h2
  · rw [hget 3 (by omega), slashToDash_digit _ h3]; exact h3
  · rw [hget 4 (by omega), hs4]; decide
  · rw [hget 5 (by omega), slashToDash_digit _ h5]; exact h5
  · rw [hget 6 (by omega), slashToDash_digit _ h6]; exact h6
  · rw [hget 7 (by omega), hs7]; decide
  · rw [hget 8 (by omega), slashToDash_digit _ h8]; exact h8
  · rw [hget 9 (by omega), slashToDash_digit _ h9]; exact h9

/-- On a string of digits and hyphens that does not match the
MM-DD-YYYY shape, `OCRService.formatDate` is the identity. -/
theorem ocrFormatDate_fix (l : List Char)
    (hchar : ∀ c ∈ l, isDigitCh c = true ∨ c = '-')
    (hp2 : isPat2 l = false) : OCRService.formatDate l = l := by
  have hpred : ∀ c ∈ l, (isDigitCh c || c == '/' || c == '-') = true := by
    intro c hc
    rcases hchar c hc with h | h
    · simp [h]
    · simp [h]
  have hfl : l.filter (fun c => isDigitCh c || c == '/' || c == '-') = l :=
    List.filter_eq_self.mpr hpred
  have hp1 : isPat1 l = false := by
    by_contra hne
    rw [Bool.not_eq_false] at hne
    rcases hchar '/' (isPat1_slash_mem l hne) with h | h
    · exact absurd h (by decide)
    · exact absurd h (by decide)
  have hp4 : isPat4 l = false := by
    by_contra hne
    rw [Bool.not_eq_false] at hne
    rcases hchar '/' (isPat4_slash_mem l hne) with h | h
    · exact absurd h (by decide)
    · exact absurd h (by decide)
  rw [ocrFormatDate_eq l, hfl, hp1, hp2, hp4]
  simp only [Bool.false_eq_true, if_false]
  by_cases hp3 : isPat3 l = true
  · rw [if_pos hp3]
  · rw [if_neg hp3]

theorem formatDate_dateFromMDY_fix (s : List Char) (mdy : Nat × Nat × Nat)
    (horig : OCRService.formatDate s = dateFromMDY s mdy) :
    OCRService.formatDate (dateFromMDY s mdy) = dateFromMDY s mdy := by
  unfold dateFromMDY at horig ⊢
  cases hjs : jsDateYMD (yearAdjust ((mdy.2.2 : Nat) : Int))
      (((mdy.1 : Nat) : Int) - 1) ((mdy.2.1 : Nat) : Int) with
  | none =>
    simp only [hjs] at horig ⊢
    exact horig
  | some ymd =>
    simp only [hjs] at horig ⊢
    unfold jsDateYMD at hjs
    have hjs' :
        (if (jsMakeDay (yearAdjust ((mdy.2.2 : Nat) : Int))
              (((mdy.1 : Nat) : Int) - 1) ((mdy.2.1 : Nat) : Int)).natAbs
            ≤ 100000000
         then some (civilFromDays (jsMakeDay
            (yearAdjust ((mdy.2.2 : Nat) : Int)) (((mdy.1 : Nat) : Int) - 1)
            ((mdy.2.1 : Nat) : Int)))
         else none) = some ymd := hjs
    clear hjs
    split at hjs'
    · have hymd := Option.some.inj hjs'
      obtain ⟨y, m, d⟩ := ymd
      have hb := civilFromDays_bounds (jsMakeDay
        (yearAdjust ((mdy.2.2 : Nat) : Int)) (((mdy.1 : Nat) : Int) - 1)
        ((mdy.2.1 : Nat) : Int))
      rw [hymd] at hb
      exact ocrFormatDate_fix _ (fmtYMD_chars y m d)
        (fmtYMD_not_pat2 y m d hb.1 hb.2)
    · cases hjs'

theorem ocrFormatDate_idem (s : List Char) :
    OCRService.formatDate (OCRService.formatDate s) = OCRService.formatDate s := by
  by_cases h1 : isPat1 (s.filter (fun c => isDigitCh c || c == '/' || c == '-')) = true
  · have hfs : OCRService.formatDate s = dateFromMDY s
        (mdyOf (s.filter (fun c => isDigitCh c || c == '/' || c == '-'))) := by
      rw [ocrFormatDate_eq s, if_pos h1]
    rw [hfs]
    exact formatDate_dateFromMDY_fix s _ hfs
  · by_cases h2 : isPat2 (s.filter (fun c => isDigitCh c || c == '/' || c == '-')) = true
    · have hfs : OCRService.formatDate s = dateFromMDY s
          (mdyOf (s.filter (fun c => isDigitCh c || c == '/' || c == '-'))) := by
        rw [ocrFormatDate_eq s, if_neg h1, if_pos h2]
      rw [hfs]
      exact formatDate_dateFromMDY_fix s _ hfs
    · by_cases h3 : isPat3 (s.filter (fun c => isDigitCh c || c == '/' || c == '-')) = true
      · have hfs : OCRService.formatDate s =
            s.filter (fun c => isDigitCh c || c == '/' || c == '-') := by
          rw [ocrFormatDate_eq s, if_neg h1, if_neg h2, if_pos h3]
        rw [hfs]
        exact ocrFormatDate_fix _ (isPat3_chars _ h3) (isPat3_not_pat2 _ h3)
      · by_cases h4 : isPat4 (s.filter (fun c => isDigitCh c || c == '/' || c == '-')) = true
        · have hfs : OCRService.formatDate s =
              (s.filter (fun c => isDigitCh c || c == '/' || c == '-')).map
                (fun c => if c == '/' then '-' else c) := by
            rw [ocrFormatDate_eq s, if_neg h1, if_neg h2, if_neg h3, if_pos h4]
          rw [hfs]
          have hp3 := isPat4_map_pat3 _ h4
          exact ocrFormatDate_fix _ (isPat3_chars _ hp3) (isPat3_not_pat2 _ hp3)
        · have hfs : OCRService.formatDate s = s := by
            rw [ocrFormatDate_eq s, if_neg h1, if_neg h2, if_neg h3, if_neg h4]
          rw [hfs]
          exact hfs

section CleanNameLemmas

theorem splitAux_no_sep (sep : Char) :
    ∀ (s acc : List Char), (∀ c ∈ acc, c ≠ sep) →
      ∀ p ∈ splitAux sep s acc, sep ∉ p := by
  intro s
  induction s with
  | nil =>
    intro acc hacc p hp
    simp only [splitAux, List.mem_singleton] at hp
    subst hp
    intro hmem
    exact hacc sep ((List.mem_reverse).mp hmem) rfl
  | cons c rest ih =>
    intro acc hacc p hp
    simp only [splitAux] at hp
    by_cases hc : (c == sep) = true
    · rw [if_pos hc] at hp
      rcases List.mem_cons.mp hp with hp | hp
      · subst hp
        intro hmem
        exact hacc sep ((List.mem_reverse).mp hmem) rfl
      · exact ih [] (by simp) p hp
    · rw [if_neg hc] at hp
      refine ih (c :: acc) ?_ p hp
      intro c' hc'
      rcases List.mem_cons.mp hc' with h | h
      · subst h
        rw [beq_iff_eq] at hc
        exact hc
      · exact hacc c' h

theorem splitAux_chars (sep : Char) :
    ∀ (s acc : List Char), ∀ p ∈ splitAux sep s acc, ∀ c ∈ p, c ∈ acc ∨ c ∈ s := by
  intro s
  induction s with
  | nil =>
    intro acc p hp c hc
    simp only [splitAux, List.mem_singleton] at hp
    subst hp
    exact Or.inl ((List.mem_reverse).mp hc)
  | cons c0 rest ih =>
    intro acc p hp c hc
    simp only [splitAux] at hp
    by_cases hc0 : (c0 == sep) = true
    · rw [if_pos hc0] at hp
      rcases List.mem_cons.mp hp with hp | hp
      · subst hp
        exact Or.inl ((List.mem_reverse).mp hc)
      · rcases ih [] p hp c hc with h | h
        · cases h
        · exact Or.inr (by simp [h])
    · rw [if_neg hc0] at hp
      rcases ih (c0 :: acc) p hp c hc with h | h
      · rcases List.mem_cons.mp h with h | h
        · exact Or.inr (by simp [h])
        · exact Or.inl h
      · exact Or.inr (by simp [h])

theorem splitOn_no_sep (sep : Char) (s : List Char) :
    ∀ p ∈ splitOn sep s, sep ∉ p :=
  splitAux_no_sep sep s [] (by simp)

theorem splitOn_chars (sep : Char) (s : List Char) :
    ∀ p ∈ splitOn sep s, ∀ c ∈ p, c ∈ s := by
  intro p hp c hc
  rcases splitAux_chars sep s [] p hp c hc with h | h
  · cases h
  · exact h

theorem splitAux_no_sep_base (sep : Char) :
    ∀ (p acc : List Char), sep ∉ p → splitAux sep p acc = [acc.reverse ++ p] := by
  intro p
  induction p with
  | nil => intro acc h; simp [splitAux]
  | cons c t ih =>
    intro acc h
    simp only [splitAux]
    rw [if_neg (by rw [beq_iff_eq]; intro he; exact h (by simp [he]))]
    rw [ih (c :: acc) (fun hm => h (List.mem_cons_of_mem c hm))]
    simp

theorem splitAux_sep_break (sep : Char) :
    ∀ (p t acc : List Char), sep ∉ p →
      splitAux sep (p ++ sep :: t) acc = (acc.reverse ++ p) :: splitAux sep t [] := by
  intro p
  induction p with
  | nil =>
    intro t acc h
    simp [splitAux]
  | cons c p' ih =>
    intro t acc h
    simp only [List.cons_append, splitAux]
    rw [if_neg (by rw [beq_iff_eq]; intro he; exact h (by simp [he]))]
    show splitAux sep (p' ++ sep :: t) (c :: acc) = _
    rw [ih t (c :: acc) (fun hm => h (List.mem_cons_of_mem c hm))]
    simp

theorem splitOn_joinSp :
    ∀ (L : List (List Char)), L ≠ [] → (∀ p ∈ L, ' ' ∉ p) →
      splitOn ' ' (joinSp L) = L := by
  intro L
  induction L with
  | nil => intro h; exact absurd rfl h
  | cons p L' ih =>
    intro _ hne
    cases L' with
    | nil =>
      show splitOn ' ' p = [p]
      exact splitAux_no_sep_base ' ' p [] (hne p (by simp))
    | cons q M =>
      show splitOn ' ' (p ++ ' ' :: joinSp (q :: M)) = p :: (q :: M)
      unfold splitOn
      rw [splitAux_sep_break ' ' p (joinSp (q :: M)) [] (hne p (by simp))]
      rw [show splitAux ' ' (joinSp (q :: M)) [] = splitOn ' ' (joinSp (q :: M))
        from rfl]
      rw [ih (by simp) (fun r hr => hne r (by simp [hr]))]
      simp

theorem dropWhile_joinSp :
    ∀ (L : List (List Char)),
      (∀ p ∈ L, ∀ c ∈ p, isJsWhitespace c = false) →
      (joinSp L).dropWhile isJsWhitespace =
        joinSp (L.dropWhile (fun p => p.isEmpty)) := by
  intro L
  induction L with
  | nil => intro h; rfl
  | cons p L' ih =>
    intro h
    rcases p with _ | ⟨c0, t0⟩
    · cases L' with
      | nil => rfl
      | cons q M =>
        show (' ' :: joinSp (q :: M)).dropWhile isJsWhitespace = _
        rw [List.dropWhile_cons, if_pos (by decide)]
        rw [show ((([] : List Char) :: q :: M).dropWhile (fun p => p.isEmpty))
          = ((q :: M).dropWhile (fun p => p.isEmpty)) from by
            rw [List.dropWhile_cons]; simp]
        exact ih (fun r hr c hc => h r (by simp [hr]) c hc)
    · have hc0 : isJsWhitespace c0 = false := h (c0 :: t0) (by simp) c0 (by simp)
      cases L' with
      | nil =>
        show ((c0 :: t0)).dropWhile isJsWhitespace = _
        rw [List.dropWhile_cons, if_neg (by simp [hc0])]
        rw [show (([c0 :: t0] : List (List Char)).dropWhile (fun p => p.isEmpty))
          = [c0 :: t0] from by rw [List.dropWhile_cons]; simp]
        rfl
      | cons q M =>
        show ((c0 :: (t0 ++ ' ' :: joinSp (q :: M)))).dropWhile isJsWhitespace = _
        rw [List.dropWhile_cons, if_neg (by simp [hc0])]
        rw [show (((c0 :: t0) :: q :: M).dropWhile (fun p => p.isEmpty))
          = (c0 :: t0) :: q :: M from by rw [List.dropWhile_cons]; simp]
        rfl

theorem joinSp_append_last :
    ∀ (M : List (List Char)) (q : List Char), M ≠ [] →
      joinSp (M ++ [q]) = joinSp M ++ ' ' :: q := by
  intro M
  induction M with
  | nil => intro q h; exact absurd rfl h
  | cons p M' ih =>
    intro q _
    cases M' with
    | nil => rfl
    | cons r N =>
      show joinSp (p :: ((r :: N) ++ [q])) = _
      rw [show joinSp (p :: ((r :: N) ++ [q]))
        = p ++ ' ' :: joinSp ((r :: N) ++ [q]) from rfl]
      rw [ih q (by simp)]
      show _ = (p ++ ' ' :: joinSp (r :: N)) ++ ' ' :: q
      simp

theorem reverse_joinSp :
    ∀ (L : List (List Char)),
      (joinSp L).reverse = joinSp (L.reverse.map List.reverse) := by
  intro L
  induction L with
  | nil => rfl
  | cons p L' ih =>
    cases L' with
    | nil => simp [joinSp]
    | cons q M =>
      show (p ++ ' ' :: joinSp (q :: M)).reverse = _
      rw [List.reverse_append, List.reverse_cons]
      rw [ih]
      rw [show ((p :: q :: M).reverse) = (q :: M).reverse ++ [p] from by simp]
      rw [List.map_append]
      rw [show List.map List.reverse [p] = [p.reverse] from rfl]
      rw [joinSp_append_last _ _ (by simp)]
      simp

theorem dropE_map_reverse :
    ∀ (M : List (List Char)),
      (M.map List.reverse).dropWhile (fun p => p.isEmpty) =
        (M.dropWhile (fun p => p.isEmpty)).map List.reverse := by
  intro M
  induction M with
  | nil => rfl
  | cons p M' ih =>
    show ((p.reverse :: M'.map List.reverse)).dropWhile (fun p => p.isEmpty) = _
    rw [List.dropWhile_cons, List.dropWhile_cons]
    by_cases hp : p.isEmpty = true
    · rw [if_pos (by simpa using hp), if_pos hp]
      exact ih
    · rw [if_neg (by simpa using hp), if_neg hp]
      rfl

theorem trim_joinSp (L : List (List Char))
    (h : ∀ p ∈ L, ∀ c ∈ p, isJsWhitespace c = false) :
    trim (joinSp L) =
      joinSp ((((L.dropWhile (fun p => p.isEmpty)).reverse.dropWhile
        (fun p => p.isEmpty))).reverse) := by
  unfold trim
  rw [dropWhile_joinSp L h]
  rw [reverse_joinSp]
  rw [dropWhile_joinSp _ (by
    intro p hp c hc
    rw [List.mem_map] at hp
    obtain ⟨p0, hp0, hrev⟩ := hp
    have hp0L : p0 ∈ L :=
      ((List.dropWhile_sublist _).subset) ((List.mem_reverse).mp hp0)
    subst hrev
    exact h p0 hp0L c ((List.mem_reverse).mp hc))]
  rw [dropE_map_reverse]
  rw [reverse_joinSp]
  rw [← List.map_reverse]
  rw [List.map_map]
  rw [show (List.reverse ∘ List.reverse : List Char → List Char) = id from
    funext (fun l => List.reverse_reverse l)]
  rw [List.map_id]

theorem dropE_cons_ne (q : List Char) (M : List (List Char)) (hq : q ≠ []) :
    (q :: M).dropWhile (fun p => p.isEmpty) = q :: M := by
  rw [List.dropWhile_cons, if_neg (by simp [hq])]

theorem dropE_head_ne :
    ∀ (X : List (List Char)) (q : List Char) (M : List (List Char)),
      X.dropWhile (fun p => p.isEmpty) = q :: M → q ≠ [] := by
  intro X
  induction X with
  | nil => intro q M h; cases h
  | cons p X' ih =>
    intro q M h
    rw [List.dropWhile_cons] at h
    by_cases hp : p.isEmpty = true
    · rw [if_pos hp] at h
      exact ih q M h
    · rw [if_neg hp] at h
      cases h
      simpa using hp

theorem dropE_append_last (A : List (List Char)) (q : List Char) (hq : q ≠ []) :
    (A ++ [q]).dropWhile (fun p => p.isEmpty) =
      A.dropWhile (fun p => p.isEmpty) ++ [q] := by
  induction A with
  | nil =>
    show ([q] : List (List Char)).dropWhile (fun p => p.isEmpty) = _
    rw [dropE_cons_ne q [] hq]
    rfl
  | cons a A' ih =>
    show ((a :: (A' ++ [q])).dropWhile (fun p => p.isEmpty)) = _
    rw [List.dropWhile_cons, List.dropWhile_cons]
    by_cases ha : a.isEmpty = true
    · rw [if_pos ha, if_pos ha]
      exact ih
    · rw [if_neg ha, if_neg ha]
      rfl

theorem dropTrailE_cons (q : List Char) (M : List (List Char)) (hq : q ≠ []) :
    ((q :: M).reverse.dropWhile (fun p => p.isEmpty)).reverse =
      q :: (M.reverse.dropWhile (fun p => p.isEmpty)).reverse := by
  rw [List.reverse_cons]
  rw [dropE_append_last _ q hq]
  rw [List.reverse_append]
  rfl

theorem capPart_idem (p : List Char) :
    OCRService.capPart (OCRService.capPart p) = OCRService.capPart p := by
  cases p with
  | nil => rfl
  | cons c t =>
    show OCRService.capPart (upChar c :: t.map lowChar) = _
    show upChar (upChar c) :: (t.map lowChar).map lowChar = _
    rw [upChar_idem, List.map_map]
    rw [show (lowChar ∘ lowChar) = lowChar from funext (fun x => lowChar_idem x)]
    rfl

theorem capPart_wsFree (p : List Char)
    (h : ∀ c ∈ p, isJsWhitespace c = false) :
    ∀ c ∈ OCRService.capPart p, isJsWhitespace c = false := by
  cases p with
  | nil => intro c hc; cases hc
  | cons c0 t =>
    intro c hc
    rcases List.mem_cons.mp hc with hc | hc
    · subst hc
      rw [isJsWhitespace_upChar]
      exact h c0 (by simp)
    · rw [List.mem_map] at hc
      obtain ⟨c1, hc1, hlow⟩ := hc
      subst hlow
      rw [isJsWhitespace_lowChar]
      exact h c1 (by simp [hc1])

theorem joinSp_head (q : List Char) (M : List (List Char)) (hq : q ≠ []) :
    (joinSp (q :: M)).head? = q.head? := by
  cases M with
  | nil => rfl
  | cons r N =>
    show (q ++ ' ' :: joinSp (r :: N)).head? = q.head?
    cases q with
    | nil => exact absurd rfl hq
    | cons c t => rfl

theorem joinSp_getLast :
    ∀ (K : List (List Char)) (d : List Char),
      K.getLast? = some d → d ≠ [] → (joinSp K).getLast? = d.getLast? := by
  intro K
  induction K with
  | nil => intro d h; cases h
  | cons p K' ih =>
    intro d h hd
    cases K' with
    | nil =>
      have hpd : p = d := by simpa using h
      subst hpd
      rfl
    | cons q M =>
      rw [List.getLast?_cons_cons] at h
      have hrec := ih d h hd
      show (p ++ ' ' :: joinSp (q :: M)).getLast? = d.getLast?
      rw [List.getLast?_append_of_ne_nil _ (by simp)]
      have hne : joinSp (q :: M) ≠ [] := by
        intro hnil
        rw [hnil] at hrec
        have : d.getLast? = none := hrec.symm
        rw [List.getLast?_eq_none_iff] at this
        exact hd this
      rw [show (' ' :: joinSp (q :: M)) = [' '] ++ joinSp (q :: M) from rfl]
      rw [List.getLast?_append_of_ne_nil _ hne]
      exact hrec

theorem cleanName_fixed (K : List (List Char))
    (hws : ∀ p ∈ K, ∀ c ∈ p, isJsWhitespace c = false)
    (hcap : ∀ p ∈ K, OCRService.capPart p = p)
    (hhead : ∀ q M, K = q :: M → q ≠ [])
    (hlast : ∀ d, K.getLast? = some d → d ≠ []) :
    OCRService.cleanName (joinSp K) = joinSp K := by
  cases K with
  | nil =>
    show OCRService.cleanName [] = []
    decide
  | cons q M =>
    have hq : q ≠ [] := hhead q M rfl
    unfold OCRService.cleanName
    rw [splitOn_joinSp (q :: M) (by simp) (by
      intro p hp hsp
      have := hws p hp ' ' hsp
      exact absurd this (by decide))]
    rw [List.map_congr_left (g := id) (fun p hp => hcap p hp), List.map_id]
    apply trim_eq_self_of_ends
    · intro c hc
      rw [joinSp_head q M hq] at hc
      exact hws q (by simp) c (List.mem_of_mem_head? hc)
    · intro c hc
      have hlastK : ∃ d, (q :: M).getLast? = some d := by
        cases hgl : (q :: M).getLast? with
        | none => rw [List.getLast?_eq_none_iff] at hgl; cases hgl
        | some d => exact ⟨d, rfl⟩
      obtain ⟨d, hd⟩ := hlastK
      have hdne : d ≠ [] := hlast d hd
      rw [joinSp_getLast (q :: M) d hd hdne] at hc
      have hdK : d ∈ q :: M := by
        rw [← List.head?_reverse] at hd
        exact (List.mem_reverse).mp (List.mem_of_mem_head? hd)
      apply hws d hdK c
      rw [← List.head?_reverse] at hc
      exact (List.mem_reverse).mp (List.mem_of_mem_head? hc)

theorem cleanName_idem_space_only (s : List Char)
    (h : ∀ c ∈ s, isJsWhitespace c = true → c = ' ') :
    OCRService.cleanName (OCRService.cleanName s) = OCRService.cleanName s := by
  have hparts : ∀ p ∈ splitOn ' ' s, ∀ c ∈ p, isJsWhitespace c = false := by
    intro p hp c hc
    by_contra hws
    rw [Bool.not_eq_false] at hws
    have hsp : c = ' ' := h c (splitOn_chars ' ' s p hp c hc) hws
    subst hsp
    exact splitOn_no_sep ' ' s p hp hc
  have hLws : ∀ p ∈ (splitOn ' ' s).map OCRService.capPart,
      ∀ c ∈ p, isJsWhitespace c = false := by
    intro p hp c hc
    rw [List.mem_map] at hp
    obtain ⟨p0, hp0, hcp⟩ := hp
    subst hcp
    exact capPart_wsFree p0 (hparts p0 hp0) c hc
  have hy : OCRService.cleanName s =
      joinSp (((((splitOn ' ' s).map OCRService.capPart).dropWhile
        (fun p => p.isEmpty)).reverse.dropWhile (fun p => p.isEmpty)).reverse) := by
    unfold OCRService.cleanName
    rw [trim_joinSp _ hLws]
  rw [hy]
  have hKsub : ∀ p ∈ (((((splitOn ' ' s).map OCRService.capPart).dropWhile
      (fun p => p.isEmpty)).reverse.dropWhile (fun p => p.isEmpty)).reverse),
      p ∈ (splitOn ' ' s).map OCRService.capPart := by
    intro p hp
    rw [List.mem_reverse] at hp
    have h1 := (List.dropWhile_sublist _).subset hp
    rw [List.mem_reverse] at h1
    exact (List.dropWhile_sublist _).subset h1
  apply cleanName_fixed
  · intro p hp
    exact hLws p (hKsub p hp)
  · intro p hp
    have := hKsub p hp
    rw [List.mem_map] at this
    obtain ⟨p0, hp0, hcp⟩ := this
    subst hcp
    exact capPart_idem p0
  · intro q M hqm
    cases hdl : (((splitOn ' ' s).map OCRService.capPart).dropWhile
        (fun p => p.isEmpty)) with
    | nil =>
      rw [hdl] at hqm
      cases hqm
    | cons q0 M0 =>
      have hq0 : q0 ≠ [] := dropE_head_ne _ q0 M0 hdl
      rw [hdl, dropTrailE_cons q0 M0 hq0] at hqm
      cases hqm
      exact hq0
  · intro d hd
    rw [List.getLast?_reverse] at hd
    cases hdw : ((((splitOn ' ' s).map OCRService.capPart).dropWhile
        (fun p => p.isEmpty)).reverse.dropWhile (fun p => p.isEmpty)) with
    | nil => rw [hdw] at hd; cases hd
    | cons x t =>
      rw [hdw] at hd
      have hdx : x = d := by simpa using hd
      exact hdx ▸ dropE_head_ne _ x t hdw

end CleanNameLemmas

/-- C8: As stated, the claim is FALSE: the name cleaner is not idempotent
(see `claim8_counterexample_tab_name`).  Amended version, proved here: the
two date normalizers and the license, state, zip, gender and eye-color
normalizers are unconditionally idempotent, and the name cleaner is
idempotent on every input whose whitespace characters are all plain
spaces. -/
theorem claim8_normalizer_idempotence :
    (∀ s, BarcodeDecoder.formatDate (BarcodeDecoder.formatDate s)
        = BarcodeDecoder.formatDate s) ∧
    (∀ s, OCRService.formatDate (OCRService.formatDate s)
        = OCRService.formatDate s) ∧
    (∀ s, OCRService.licenseNormalize (OCRService.licenseNormalize s)
        = OCRService.licenseNormalize s) ∧
    (∀ s, OCRService.stateNormalize (OCRService.stateNormalize s)
        = OCRService.stateNormalize s) ∧
    (∀ s, OCRService.zipNormalize (OCRService.zipNormalize s)
        = OCRService.zipNormalize s) ∧
    (∀ s, OCRService.genderNormalize (OCRService.genderNormalize s)
        = OCRService.genderNormalize s) ∧
    (∀ s, OCRService.eyeColorNormalize (OCRService.eyeColorNormalize s)
        = OCRService.eyeColorNormalize s) ∧
    (∀ s, (∀ c ∈ s, isJsWhitespace c = true → c = ' ') →
        OCRService.cleanName (OCRService.cleanName s)
          = OCRService.cleanName s) :=
  ⟨decFormatDate_idem, ocrFormatDate_idem, licenseNormalize_idem,
   stateNormalize_idem, zipNormalize_idem, genderNormalize_idem,
   eyeColorNormalize_idem, cleanName_idem_space_only⟩

/-- C8 counterexample: the name cleaner is not idempotent.  On the input
"\tab" (a tab followed by "ab") `cleanName` returns "\tab" capitalised as
a single word — the leading tab survives because `split(' ')` only splits
on spaces while `trim` strips all whitespace — and a second application
re-splits and changes the string again. -/
theorem claim8_counterexample_tab_name :
    OCRService.cleanName (OCRService.cleanName [Char.ofNat 9, 'a', 'b'])
      ≠ OCRService.cleanName [Char.ofNat 9, 'a', 'b'] := by
  decide

/-- C8 witness: the amended idempotence theorem applied at concrete
inputs, including the name cleaner on "jOHN sMITH". -/
theorem claim8_normalizer_idempotence_witness :
    OCRService.cleanName (OCRService.cleanName (str "jOHN sMITH"))
      = OCRService.cleanName (str "jOHN sMITH") ∧
    BarcodeDecoder.formatDate (BarcodeDecoder.formatDate (str "06151985"))
      = BarcodeDecoder.formatDate (str "06151985") :=
  ⟨claim8_normalizer_idempotence.2.2.2.2.2.2.2 (str "jOHN sMITH") (by decide),
   claim8_normalizer_idempotence.1 (str "06151985")⟩
